import Mathlib

/-!
Verification development for the pulumi-rs-yaml language host.

The repository ships a Python wrapper package (`pulumi_yaml_rs`) around a
native core.  The native core itself (project discovery, the Jinja-style
preprocessor, YAML lowering, the built-in function registry, and the
execution planner) is not part of the Python sources; its behaviour is
documented in `spec.md` and exercised by the Python test-suite.  The
definitions below therefore fall into two groups:

* models of the native core, each marked `Modelled from the spec:` in its
  doc comment, faithful to the spec's wording (§ references are to spec.md);
* direct translations of the Python sources that are present
  (`pulumi_yaml_rs/_find_binary.py`).

All definitions are written so that they compute by structural recursion
(kernel-reducible), which lets concrete witnesses be checked by `decide`.
Strings are processed through their underlying `List Char`, because the
builtin `String` search primitives do not reduce in the kernel.
-/

namespace PulumiYamlRs

/-- Error outcomes surfaced at the Python API boundary (spec §6 diagnostics
codes and §7 fatal errors; Python-level exceptions of the wrapper). -/
inductive Err where
  | typeError
  | indexError
  | decodeError
  | unknownBuiltin
  | missingDirectory
  | missingManifest
  | unknownTemplateKey
  | unbalancedBlocks
  | templateSyntax
  | fileNotFoundError
  deriving DecidableEq

def exceptDecEq {ε α : Type} [DecidableEq ε] [DecidableEq α] :
    (a b : Except ε α) → Decidable (a = b)
  | .ok x, .ok y =>
    if h : x = y then .isTrue (congrArg Except.ok h)
    else .isFalse (fun hh => h (Except.ok.inj hh))
  | .error x, .error y =>
    if h : x = y then .isTrue (congrArg Except.error h)
    else .isFalse (fun hh => h (Except.error.inj hh))
  | .ok _, .error _ => .isFalse (fun hh => Except.noConfusion hh)
  | .error _, .ok _ => .isFalse (fun hh => Except.noConfusion hh)

instance {ε α : Type} [DecidableEq ε] [DecidableEq α] : DecidableEq (Except ε α) :=
  exceptDecEq

/-! ### Generic string helpers (kernel-reducible) -/

/-- Split a character list at every occurrence of the separator `c`. -/
def splitOnCharAux (c : Char) : List Char → List (List Char)
  | [] => [[]]
  | x :: rest =>
    if x = c then [] :: splitOnCharAux c rest
    else
      match splitOnCharAux c rest with
      | [] => [[x]]
      | l :: ls => (x :: l) :: ls

/-- Split a string on a separator character. -/
def splitOnChar (c : Char) (s : String) : List String :=
  (splitOnCharAux c s.data).map String.mk

/-- Lexicographic `≤` on character lists (by code point). -/
def charListLe : List Char → List Char → Bool
  | [], _ => true
  | _ :: _, [] => false
  | a :: as, b :: bs =>
    if a = b then charListLe as bs else decide (a.toNat < b.toNat)

/-- Lexicographic `≤` on strings, used for deterministic ordering. -/
def strLeB (a b : String) : Bool := charListLe a.data b.data

/-- Insert into a list sorted by `le`. -/
def insertLe {α : Type} (le : α → α → Bool) (x : α) : List α → List α
  | [] => [x]
  | y :: ys => if le x y then x :: y :: ys else y :: insertLe le x ys

/-- Insertion sort by `le` (kernel-reducible, unlike `List.mergeSort`). -/
def sortLe {α : Type} (le : α → α → Bool) (l : List α) : List α :=
  l.foldr (insertLe le) []

/-- Sort strings lexicographically. -/
def sortStrings (l : List String) : List String := sortLe strLeB l

/-- Association-list lookup keyed by strings (kernel-reducible). -/
def alookup {α : Type} (s : String) : List (String × α) → Option α
  | [] => none
  | (k, v) :: rest => if s = k then some v else alookup s rest

/-- String membership in a list (kernel-reducible). -/
def strMem (s : String) : List String → Bool
  | [] => false
  | x :: rest => s = x || strMem s rest

/-! ### Python ↔ native boundary values

Modelled from the spec: §4.6 "Type conversion at the boundary round-trips:
`null, bool, int64, float64, string, list, map(string→value)`.  Conversion
failure at the boundary is `TypeError`."  The native core is not under
`src/`, so the two value universes and the converting functions
(`py_to_value` / `value_to_py` in the tests' wording) are modelled here.
Python/native floats are carried by their IEEE-754 bit pattern (an
`UInt64`), since the boundary passes doubles through bit-exactly; no
floating-point arithmetic is modelled.  The types are given as mutual
inductives (rather than nesting `List`) so that all recursion over them is
structural and kernel-reducible. -/

mutual
inductive JVal where
  | none
  | bool (b : Bool)
  | int (n : Int)
  | float (bits : UInt64)
  | str (s : String)
  | list (xs : JList)
  | dict (entries : JDict)
  deriving DecidableEq
inductive JList where
  | nil
  | cons (hd : JVal) (tl : JList)
  deriving DecidableEq
inductive JDict where
  | nil
  | cons (key : String) (val : JVal) (tl : JDict)
  deriving DecidableEq
end

mutual
inductive RVal where
  | null
  | bool (b : Bool)
  | int (n : Int)
  | float (bits : UInt64)
  | str (s : String)
  | list (xs : RList)
  | map (entries : RMap)
  deriving DecidableEq
inductive RList where
  | nil
  | cons (hd : RVal) (tl : RList)
  deriving DecidableEq
inductive RMap where
  | nil
  | cons (key : String) (val : RVal) (tl : RMap)
  deriving DecidableEq
end

def int64Min : Int := -(2 ^ 63)

def int64Max : Int := 2 ^ 63 - 1

mutual
/-- Modelled from the spec: conversion of a Python value into a native
value.  Integers must fit in `int64`; any violation is a `TypeError`
(spec §4.6). -/
def py_to_value : JVal → Except Err RVal
  | .none => .ok .null
  | .bool b => .ok (.bool b)
  | .int n =>
    if int64Min ≤ n ∧ n ≤ int64Max then .ok (.int n) else .error .typeError
  | .float bits => .ok (.float bits)
  | .str s => .ok (.str s)
  | .list xs => do .ok (.list (← py_list_to_value xs))
  | .dict es => do .ok (.map (← py_dict_to_value es))
def py_list_to_value : JList → Except Err RList
  | .nil => .ok .nil
  | .cons v tl => do .ok (.cons (← py_to_value v) (← py_list_to_value tl))
def py_dict_to_value : JDict → Except Err RMap
  | .nil => .ok .nil
  | .cons k v tl => do .ok (.cons k (← py_to_value v) (← py_dict_to_value tl))
end

mutual
/-- Modelled from the spec: conversion of a native value back to Python
(total). -/
def value_to_py : RVal → JVal
  | .null => .none
  | .bool b => .bool b
  | .int n => .int n
  | .float bits => .float bits
  | .str s => .str s
  | .list xs => .list (value_list_to_py xs)
  | .map es => .dict (value_map_to_py es)
def value_list_to_py : RList → JList
  | .nil => .nil
  | .cons v tl => .cons (value_to_py v) (value_list_to_py tl)
def value_map_to_py : RMap → JDict
  | .nil => .nil
  | .cons k v tl => .cons k (value_to_py v) (value_map_to_py tl)
end

mutual
/-- Well-formedness of a Python value for the boundary: every integer in
it fits in `int64` (the only conversion that can fail). -/
def jwf : JVal → Bool
  | .int n => decide (int64Min ≤ n ∧ n ≤ int64Max)
  | .list xs => jwf_list xs
  | .dict es => jwf_dict es
  | _ => true
def jwf_list : JList → Bool
  | .nil => true
  | .cons v tl => jwf v && jwf_list tl
def jwf_dict : JDict → Bool
  | .nil => true
  | .cons _ v tl => jwf v && jwf_dict tl
end

/-- Length of a native list value. -/
def rlistLength : RList → Nat
  | .nil => 0
  | .cons _ tl => rlistLength tl + 1

/-- 0-based indexing into a native list value. -/
def rlistGet : RList → Nat → Option RVal
  | .nil, _ => none
  | .cons v _, 0 => some v
  | .cons _ tl, n + 1 => rlistGet tl n

/-! ### UTF-8 (bytes as `Nat`s below 256)

Modelled from the spec: §4.6 `toBase64` is "standard Base64, no wrapping"
of the string's UTF-8 bytes, and `fromBase64` is "standard Base64 decode
to UTF-8 string; invalid → `DecodeError`".  The byte-level codecs are
written here because the builtin `String.toUTF8` does not reduce in the
kernel. -/

/-- Standard UTF-8 encoding of one Unicode scalar value. -/
def utf8EncodeCharM (c : Char) : List Nat :=
  let n := c.toNat
  if n < 0x80 then [n]
  else if n < 0x800 then [0xC0 + n / 64, 0x80 + n % 64]
  else if n < 0x10000 then
    [0xE0 + n / 4096, 0x80 + (n / 64) % 64, 0x80 + n % 64]
  else
    [0xF0 + n / 262144, 0x80 + (n / 4096) % 64, 0x80 + (n / 64) % 64,
      0x80 + n % 64]

/-- UTF-8 encoding of a character sequence. -/
def utf8EncodeList : List Char → List Nat
  | [] => []
  | c :: cs => utf8EncodeCharM c ++ utf8EncodeList cs

/-- Strict UTF-8 decoding (fuel counts decoded characters; one byte per
character at least, so the byte count is sufficient fuel).  Rejects
continuation-byte errors, overlong forms, surrogates and out-of-range
scalars. -/
def utf8DecodeGo : Nat → List Nat → Option (List Char)
  | _, [] => some []
  | 0, _ :: _ => none
  | fuel + 1, b :: rest =>
    if b < 0x80 then do
      let cs ← utf8DecodeGo fuel rest
      some (Char.ofNat b :: cs)
    else if b < 0xC0 then none
    else if b < 0xE0 then
      match rest with
      | b1 :: rest1 =>
        if 0x80 ≤ b1 ∧ b1 < 0xC0 then
          let v := (b - 0xC0) * 64 + (b1 - 0x80)
          if 0x80 ≤ v then do
            let cs ← utf8DecodeGo fuel rest1
            some (Char.ofNat v :: cs)
          else none
        else none
      | [] => none
    else if b < 0xF0 then
      match rest with
      | b1 :: b2 :: rest2 =>
        if (0x80 ≤ b1 ∧ b1 < 0xC0) ∧ (0x80 ≤ b2 ∧ b2 < 0xC0) then
          let v := (b - 0xE0) * 4096 + (b1 - 0x80) * 64 + (b2 - 0x80)
          if 0x800 ≤ v ∧ ¬(0xD800 ≤ v ∧ v < 0xE000) then do
            let cs ← utf8DecodeGo fuel rest2
            some (Char.ofNat v :: cs)
          else none
        else none
      | _ => none
    else if b < 0xF8 then
      match rest with
      | b1 :: b2 :: b3 :: rest3 =>
        if (0x80 ≤ b1 ∧ b1 < 0xC0) ∧ (0x80 ≤ b2 ∧ b2 < 0xC0) ∧
            (0x80 ≤ b3 ∧ b3 < 0xC0) then
          let v := (b - 0xF0) * 262144 + (b1 - 0x80) * 4096 +
            (b2 - 0x80) * 64 + (b3 - 0x80)
          if 0x10000 ≤ v ∧ v < 0x110000 then do
            let cs ← utf8DecodeGo fuel rest3
            some (Char.ofNat v :: cs)
          else none
        else none
      | _ => none
    else none

/-- UTF-8 decoding of a byte sequence. -/
def utf8DecodeList (bs : List Nat) : Option (List Char) :=
  utf8DecodeGo bs.length bs

/-! ### Base64 (standard alphabet, `=` padding, no line wrapping) -/

/-- The standard Base64 alphabet, indexed by sextet value. -/
def b64Char (n : Nat) : Char :=
  if n < 26 then Char.ofNat (65 + n)
  else if n < 52 then Char.ofNat (97 + (n - 26))
  else if n < 62 then Char.ofNat (48 + (n - 52))
  else if n = 62 then '+'
  else '/'

/-- Inverse alphabet lookup; `none` for characters outside the alphabet
(including the padding character). -/
def b64CharVal (c : Char) : Option Nat :=
  let n := c.toNat
  if 65 ≤ n ∧ n ≤ 90 then some (n - 65)
  else if 97 ≤ n ∧ n ≤ 122 then some (n - 97 + 26)
  else if 48 ≤ n ∧ n ≤ 57 then some (n - 48 + 52)
  else if c = '+' then some 62
  else if c = '/' then some 63
  else none

/-- Standard Base64 encoding of a byte sequence, three bytes at a time,
with `=` padding and no line wrapping. -/
def b64EncodeList : List Nat → List Char
  | b1 :: b2 :: b3 :: rest =>
    b64Char (b1 / 4) :: b64Char ((b1 % 4) * 16 + b2 / 16) ::
      b64Char ((b2 % 16) * 4 + b3 / 64) :: b64Char (b3 % 64) ::
      b64EncodeList rest
  | [b1, b2] =>
    [b64Char (b1 / 4), b64Char ((b1 % 4) * 16 + b2 / 16),
      b64Char ((b2 % 16) * 4), '=']
  | [b1] => [b64Char (b1 / 4), b64Char ((b1 % 4) * 16), '=', '=']
  | [] => []

/-- Standard Base64 decoding, four characters at a time (fuel counts
quadruples; the character count is sufficient fuel).  Rejects lengths not
divisible by four, characters outside the alphabet, misplaced padding and
non-zero trailing bits. -/
def b64DecodeGo : Nat → List Char → Option (List Nat)
  | _, [] => some []
  | 0, _ :: _ => none
  | fuel + 1, c1 :: c2 :: c3 :: c4 :: rest => do
    let s1 ← b64CharVal c1
    let s2 ← b64CharVal c2
    if c3 = '=' then
      if c4 = '=' ∧ rest = [] then
        if s2 % 16 = 0 then some [s1 * 4 + s2 / 16] else none
      else none
    else do
      let s3 ← b64CharVal c3
      if c4 = '=' then
        if rest = [] ∧ s3 % 4 = 0 then
          some [s1 * 4 + s2 / 16, (s2 % 16) * 16 + s3 / 4]
        else none
      else do
        let s4 ← b64CharVal c4
        let bs ← b64DecodeGo fuel rest
        some ((s1 * 4 + s2 / 16) :: ((s2 % 16) * 16 + s3 / 4) ::
          ((s3 % 4) * 64 + s4) :: bs)
  | _, _ :: _ => none

/-- Base64 decoding of a character sequence. -/
def b64DecodeList (cs : List Char) : Option (List Nat) :=
  b64DecodeGo cs.length cs

/-- Modelled from the spec: `toBase64` — standard Base64 of the string's
UTF-8 bytes, no wrapping (spec §4.6). -/
def toBase64 (s : String) : String :=
  String.mk (b64EncodeList (utf8EncodeList s.data))

/-- Modelled from the spec: `fromBase64` — standard Base64 decode to a
UTF-8 string; any invalid input yields `none` (surfaced as `DecodeError`,
spec §4.6). -/
def fromBase64 (s : String) : Option String := do
  let bytes ← b64DecodeList s.data
  let cs ← utf8DecodeList bytes
  some (String.mk cs)

/-- Length of a Python list value. -/
def jlistLength : JList → Nat
  | .nil => 0
  | .cons _ tl => jlistLength tl + 1

/-- 0-based indexing into a Python list value. -/
def jlistGet : JList → Nat → Option JVal
  | .nil, _ => none
  | .cons v _, 0 => some v
  | .cons _ tl, n + 1 => jlistGet tl n

/-! ### Built-in registry -/

/-- Modelled from the spec: `select` — `[integer, list]`, element at
0-based index; negative or out-of-range index is an `IndexError`
(spec §4.6); any other argument shape is a `TypeError`. -/
def eval_select : RVal → Except Err RVal
  | .list (.cons (.int i) (.cons (.list xs) .nil)) =>
    if 0 ≤ i ∧ i < (rlistLength xs : Int) then
      match rlistGet xs i.toNat with
      | some v => .ok v
      | none => .error .indexError
    else .error .indexError
  | _ => .error .typeError

/-- Modelled from the spec: `join` — `[string, [string]]`, concatenation
with separator (spec §4.6). -/
def eval_join_parts : RList → Except Err (List String)
  | .nil => .ok []
  | .cons (.str s) tl => do .ok (s :: (← eval_join_parts tl))
  | .cons _ _ => .error .typeError

def joinWithSep (sep : String) : List String → String
  | [] => ""
  | [s] => s
  | s :: rest => s ++ sep ++ joinWithSep sep rest

def eval_join : RVal → Except Err RVal
  | .list (.cons (.str sep) (.cons (.list parts) .nil)) => do
    .ok (.str (joinWithSep sep (← eval_join_parts parts)))
  | _ => .error .typeError

/-- Modelled from the spec: `stringLen` — Unicode scalar-value count
(spec §4.6). -/
def eval_stringLen : RVal → Except Err RVal
  | .str s => .ok (.int (s.data.length : Int))
  | _ => .error .typeError

/-- Modelled from the spec: `substring` — `[string, integer, integer]`,
start and length in Unicode scalars, out-of-range clips (spec §4.6). -/
def eval_substring : RVal → Except Err RVal
  | .list (.cons (.str s) (.cons (.int start) (.cons (.int len) .nil))) =>
    if 0 ≤ start ∧ 0 ≤ len then
      .ok (.str (String.mk ((s.data.drop start.toNat).take len.toNat)))
    else .error .indexError
  | _ => .error .typeError

/-- Modelled from the spec: `secret` — wraps any value as
`\x7b"__secret": true, "value": v\x7d` (spec §4.6). -/
def eval_secret (v : RVal) : Except Err RVal :=
  .ok (.map (.cons "__secret" (.bool true) (.cons "value" v .nil)))

/-- Modelled from the spec: `toBase64` over a native value. -/
def eval_toBase64 : RVal → Except Err RVal
  | .str s => .ok (.str (toBase64 s))
  | _ => .error .typeError

/-- Modelled from the spec: `fromBase64` over a native value. -/
def eval_fromBase64 : RVal → Except Err RVal
  | .str s =>
    match fromBase64 s with
    | some t => .ok (.str t)
    | none => .error .decodeError
  | _ => .error .typeError

/-- Modelled from the spec: dispatch of the built-in registry (spec §4.6).
Only the pure built-ins the claims exercise are modelled (`select`,
`join`, `stringLen`, `substring`, `secret`, `toBase64`, `fromBase64`);
the numeric built-ins (whose float semantics are IEEE arithmetic), the
`toJSON`/`split` built-ins and the non-deterministic built-ins (`uuid`,
`randomString`, `timeUtc`) are outside this model and no claim depends on
them.  Unknown names are a `ValueError` at the boundary, modelled by
`Err.unknownBuiltin`. -/
def eval_builtin_core (name : String) (arg : RVal) : Except Err RVal :=
  if name = "select" then eval_select arg
  else if name = "join" then eval_join arg
  else if name = "stringLen" then eval_stringLen arg
  else if name = "substring" then eval_substring arg
  else if name = "secret" then eval_secret arg
  else if name = "toBase64" then eval_toBase64 arg
  else if name = "fromBase64" then eval_fromBase64 arg
  else .error .unknownBuiltin

/-- Modelled from the spec: the standalone `evaluate_builtin` entry point
(spec §6): convert the Python argument across the boundary, evaluate the
named built-in, convert the result back. -/
def evaluate_builtin (name : String) (arg : JVal) : Except Err JVal := do
  let v ← py_to_value arg
  let r ← eval_builtin_core name v
  .ok (value_to_py r)

/-! ### Jinja-style preprocessor (spec §4.2)

Modelled from the spec: the native core's two-level templating
sublanguage over raw text is not under `src/`; it is modelled here from
spec §4.2: expressions `\x7b\x7b key \x7d\x7d` looked up in a
caller-supplied string→string map, and blocks
`\x7b% for x in … %\x7d` / `\x7b% if … %\x7d` with `range(n)` and
iteration over lists of strings from the context map. -/

/-- Suffix of the input just after the first occurrence of `'\x7b'`
followed by `t`; `none` if no such occurrence exists. -/
def findOpen (t : Char) : List Char → Option (List Char)
  | [] => none
  | [_] => none
  | c :: d :: rest =>
    if c = '\x7b' ∧ d = t then some rest else findOpen t (d :: rest)

/-- Whether the input contains `t` immediately followed by `'\x7d'`. -/
def hasClose (t : Char) : List Char → Bool
  | [] => false
  | [_] => false
  | c :: d :: rest => (c = t ∧ d = '\x7d') || hasClose t (d :: rest)

/-- Whether the input contains a complete `\x7bt … t\x7d` tag: an opening
`\x7bt` with a closing `t\x7d` somewhere after it. -/
def hasTag (t : Char) (l : List Char) : Bool :=
  match findOpen t l with
  | none => false
  | some r => hasClose t r

/-- Modelled from the spec: `has_jinja_blocks(text)` — true iff any
`\x7b% … %\x7d` occurs (spec §4.2). -/
def has_jinja_blocks (s : String) : Bool := hasTag '%' s.data

/-- Whether the input contains the two-character sequence `a b`. -/
def containsSeq2 (a b : Char) : List Char → Bool
  | [] => false
  | [_] => false
  | x :: y :: rest => (x = a ∧ y = b) || containsSeq2 a b (y :: rest)

/-- Modelled from the spec: whether a text contains any templating at all
(a block opener `\x7b%` or an expression opener `\x7b\x7b`, spec §4.2). -/
def has_templating (s : String) : Bool :=
  containsSeq2 '\x7b' '%' s.data || containsSeq2 '\x7b' '\x7b' s.data

/-- Split a character list into lines (segments separated by newline). -/
def splitLinesL : List Char → List (List Char)
  | [] => [[]]
  | c :: rest =>
    if c = '\n' then [] :: splitLinesL rest
    else
      match splitLinesL rest with
      | [] => [[c]]
      | l :: ls => (c :: l) :: ls

/-- Join lines back with newline separators (inverse of `splitLinesL`). -/
def unlinesL : List (List Char) → List Char
  | [] => []
  | [l] => l
  | l :: ls => l ++ '\n' :: unlinesL ls

/-- Whether a single line contains a `\x7b% … %\x7d` block tag. -/
def lineHasBlockTag (l : List Char) : Bool := hasTag '%' l

/-- Modelled from the spec: `strip_jinja_blocks(text)` — removes lines
containing block tags while preserving expression lines (spec §4.2). -/
def strip_jinja_blocks (s : String) : String :=
  String.mk (unlinesL ((splitLinesL s.data).filter (fun l => !lineHasBlockTag l)))

/-- Tokens of the templating sublanguage. -/
inductive JTok where
  | text (s : List Char)
  | exprT (key : List Char)
  | forRangeT (v : List Char) (n : Nat)
  | forInT (v : List Char) (key : List Char)
  | ifT (key : List Char)
  | endforT
  | endifT
  deriving DecidableEq

/-- Strip leading and trailing spaces. -/
def trimSpaces (l : List Char) : List Char :=
  ((l.dropWhile (· = ' ')).reverse.dropWhile (· = ' ')).reverse

/-- Space-separated words of a character list. -/
def wordsL (l : List Char) : List (List Char) :=
  (splitOnCharAux ' ' l).filter (· ≠ [])

/-- Parse a decimal numeral. -/
def parseNatGo (acc : Nat) : List Char → Option Nat
  | [] => some acc
  | c :: rest =>
    if '0' ≤ c ∧ c ≤ '9' then parseNatGo (acc * 10 + (c.toNat - 48)) rest
    else none

def parseNatL : List Char → Option Nat
  | [] => none
  | l => parseNatGo 0 l

/-- Recognize a `range(n)` iterable. -/
def parseRangeArg (l : List Char) : Option Nat :=
  match splitOnCharAux '(' l with
  | [rw, inner] =>
    if rw = ("range").data then
      match splitOnCharAux ')' inner with
      | [digits, last] => if last = [] then parseNatL digits else none
      | _ => none
    else none
  | _ => none

/-- Parse the content of one `\x7b% … %\x7d` tag. -/
def parseTag (content : List Char) : Except Err JTok :=
  match wordsL (trimSpaces content) with
  | [w] =>
    if w = ("endfor").data then .ok .endforT
    else if w = ("endif").data then .ok .endifT
    else .error .templateSyntax
  | [f, v, i, it] =>
    if f = ("for").data ∧ i = ("in").data then
      match parseRangeArg it with
      | some n => .ok (.forRangeT v n)
      | none => .ok (.forInT v it)
    else .error .templateSyntax
  | [iw, k] =>
    if iw = ("if").data then .ok (.ifT k) else .error .templateSyntax
  | _ => .error .templateSyntax

/-- Scan up to the closing `m'\x7d'`, returning the content before it and
the remainder after it. -/
def readUntilClose (m : Char) : List Char → Option (List Char × List Char)
  | [] => none
  | c :: rest =>
    if c = m then
      match rest with
      | '\x7d' :: rest2 => some ([], rest2)
      | _ =>
        match readUntilClose m rest with
        | some (content, r2) => some (c :: content, r2)
        | none => none
    else
      match readUntilClose m rest with
      | some (content, r2) => some (c :: content, r2)
      | none => none

/-- Prepend a literal character to a token stream, merging with a leading
text token. -/
def pushTextChar (c : Char) : List JTok → List JTok
  | .text s :: ts => .text (c :: s) :: ts
  | ts => .text [c] :: ts

/-- Tokenizer for the templating sublanguage (fuel-indexed; the character
count is sufficient fuel). -/
def tokenizeGo : Nat → List Char → Except Err (List JTok)
  | _, [] => .ok []
  | 0, _ :: _ => .error .unbalancedBlocks
  | f + 1, c :: rest =>
    if c = '\x7b' then
      match rest with
      | '\x7b' :: rest1 =>
        match readUntilClose '\x7d' rest1 with
        | some (content, rest2) => do
          let ts ← tokenizeGo f rest2
          .ok (.exprT (trimSpaces content) :: ts)
        | none => .error .unbalancedBlocks
      | '%' :: rest1 =>
        match readUntilClose '%' rest1 with
        | some (content, rest2) => do
          let tg ← parseTag content
          let ts ← tokenizeGo f rest2
          .ok (tg :: ts)
        | none => .error .unbalancedBlocks
      | _ => do
        let ts ← tokenizeGo f rest
        .ok (pushTextChar c ts)
    else do
      let ts ← tokenizeGo f rest
      .ok (pushTextChar c ts)

def tokenizeTop (l : List Char) : Except Err (List JTok) :=
  tokenizeGo l.length l

mutual
/-- Parsed template tree. -/
inductive TNode where
  | text (s : List Char)
  | exprN (key : List Char)
  | forRangeN (v : List Char) (n : Nat) (body : TNodes)
  | forInN (v : List Char) (key : List Char) (body : TNodes)
  | ifN (key : List Char) (body : TNodes)
  deriving DecidableEq
inductive TNodes where
  | nil
  | cons (hd : TNode) (tl : TNodes)
  deriving DecidableEq
end

/-- Block-structure parser: reads nodes up to a dangling `endfor`/`endif`
or the end of input (fuel-indexed; the token count is sufficient fuel). -/
def parseNodesGo : Nat → List JTok → Except Err (TNodes × List JTok)
  | _, [] => .ok (.nil, [])
  | 0, _ :: _ => .error .unbalancedBlocks
  | f + 1, t :: rest =>
    match t with
    | .text s => do
      let (ns, r) ← parseNodesGo f rest
      .ok (.cons (.text s) ns, r)
    | .exprT k => do
      let (ns, r) ← parseNodesGo f rest
      .ok (.cons (.exprN k) ns, r)
    | .forRangeT v n => do
      let (body, r1) ← parseNodesGo f rest
      match r1 with
      | .endforT :: r2 => do
        let (ns, r) ← parseNodesGo f r2
        .ok (.cons (.forRangeN v n body) ns, r)
      | _ => .error .unbalancedBlocks
    | .forInT v k => do
      let (body, r1) ← parseNodesGo f rest
      match r1 with
      | .endforT :: r2 => do
        let (ns, r) ← parseNodesGo f r2
        .ok (.cons (.forInN v k body) ns, r)
      | _ => .error .unbalancedBlocks
    | .ifT k => do
      let (body, r1) ← parseNodesGo f rest
      match r1 with
      | .endifT :: r2 => do
        let (ns, r) ← parseNodesGo f r2
        .ok (.cons (.ifN k body) ns, r)
      | _ => .error .unbalancedBlocks
    | .endforT => .ok (.nil, t :: rest)
    | .endifT => .ok (.nil, t :: rest)

/-- Top-level parse: trailing unmatched `endfor`/`endif` is an
`UnbalancedBlocks` error. -/
def parseTop (ts : List JTok) : Except Err TNodes := do
  let (ns, r) ← parseNodesGo ts.length ts
  match r with
  | [] => .ok ns
  | _ => .error .unbalancedBlocks

/-- The caller-supplied string→string context map. -/
def JinjaCtx : Type := List (String × String)

/-- Expression lookup: unknown keys fail with `UnknownTemplateKey`
(spec §4.2). -/
def lookupKey (ctx : JinjaCtx) (key : List Char) : Except Err String :=
  match alookup (String.mk key) ctx with
  | some v => .ok v
  | none => .error .unknownTemplateKey

mutual
/-- Evaluator for the templating sublanguage (fuel-indexed so that it is
kernel-reducible; `preprocess_jinja` supplies fuel far beyond what any
claim-relevant input consumes). `if` renders its body when the context
key is present and non-empty; `for x in key` iterates over the
comma-separated entries of the context value. -/
def evalNodesGo : Nat → TNodes → JinjaCtx → Except Err (List Char)
  | _, .nil, _ => .ok []
  | 0, .cons _ _, _ => .error .templateSyntax
  | f + 1, .cons n tl, ctx => do
    .ok ((← evalNodeGo f n ctx) ++ (← evalNodesGo f tl ctx))
def evalNodeGo : Nat → TNode → JinjaCtx → Except Err (List Char)
  | _, .text s, _ => .ok s
  | _, .exprN k, ctx => do .ok (← lookupKey ctx k).data
  | 0, .forRangeN _ _ _, _ => .error .templateSyntax
  | f + 1, .forRangeN v n body, ctx =>
    evalLoopGo f v body ((List.range n).map Nat.repr) ctx
  | 0, .forInN _ _ _, _ => .error .templateSyntax
  | f + 1, .forInN v k body, ctx => do
    let lv ← lookupKey ctx k
    evalLoopGo f v body (splitOnChar ',' lv) ctx
  | 0, .ifN _ _, _ => .error .templateSyntax
  | f + 1, .ifN k body, ctx =>
    match alookup (String.mk k) ctx with
    | some v => if v = "" then .ok [] else evalNodesGo f body ctx
    | none => .ok []
def evalLoopGo : Nat → List Char → TNodes → List String → JinjaCtx →
    Except Err (List Char)
  | _, _, _, [], _ => .ok []
  | 0, _, _, _ :: _, _ => .error .templateSyntax
  | f + 1, v, body, x :: xs, ctx => do
    .ok ((← evalNodesGo f body ((String.mk v, x) :: ctx)) ++
      (← evalLoopGo f v body xs ctx))
end

/-- Modelled from the spec: `validate_jinja(text, filename)` — syntax
check for balanced `\x7b% … %\x7d` pairs without rendering (spec §4.2).
The filename argument only decorates error messages and is omitted. -/
def validate_jinja (s : String) : Except Err Unit := do
  let ts ← tokenizeTop s.data
  let _ ← parseTop ts
  .ok ()

/-- Modelled from the spec: `preprocess_jinja(text, filename, ctx)` — the
full render (spec §4.2).  The filename argument only decorates error
messages and is omitted. -/
def preprocess_jinja (s : String) (ctx : JinjaCtx) : Except Err String := do
  let ts ← tokenizeTop s.data
  let ns ← parseTop ts
  let out ← evalNodesGo (4096 + 64 * s.data.length) ns ctx
  .ok (String.mk out)

/-! ### Expression AST (spec §3)

Modelled from the spec: the typed expression AST produced by the lowerer.
List-shaped payloads are mutual inductives so that recursion over the AST
is structural and kernel-reducible. -/

inductive Accessor where
  | field (name : String)
  | index (i : Nat)
  deriving DecidableEq

inductive AssetKind where
  | stringAsset
  | fileAsset
  | remoteAsset
  | fileArchive
  | remoteArchive
  | assetArchive
  deriving DecidableEq

mutual
inductive Expr where
  | null
  | boolE (b : Bool)
  | intE (n : Int)
  | floatE (bits : UInt64)
  | strE (s : String)
  | interp (parts : IParts)
  | sym (base : String) (accessors : List Accessor)
  | listE (items : EList)
  | objectE (entries : EEntries)
  | builtinE (name : String) (arg : Expr)
  | invoke (tok : String) (args : Expr) (opts : OptExpr)
  | asset (kind : AssetKind) (arg : Expr)
  | secretE (inner : Expr)
  deriving DecidableEq
inductive IParts where
  | nil
  | consStr (s : String) (tl : IParts)
  | consExpr (e : Expr) (tl : IParts)
  deriving DecidableEq
inductive EList where
  | nil
  | cons (hd : Expr) (tl : EList)
  deriving DecidableEq
inductive EEntries where
  | nil
  | cons (k : String) (v : Expr) (tl : EEntries)
  deriving DecidableEq
inductive OptExpr where
  | noneE
  | someE (e : Expr)
  deriving DecidableEq
end

mutual
/-- Modelled from the spec: the dependency walker — collect every
`sym(base, _)` base occurring in an expression (spec §4.7). -/
def symsOf : Expr → List String
  | .null => []
  | .boolE _ => []
  | .intE _ => []
  | .floatE _ => []
  | .strE _ => []
  | .interp ps => symsOfParts ps
  | .sym base _ => [base]
  | .listE xs => symsOfEList xs
  | .objectE es => symsOfEntries es
  | .builtinE _ a => symsOf a
  | .invoke _ a o => symsOf a ++ symsOfOptE o
  | .asset _ a => symsOf a
  | .secretE e => symsOf e
def symsOfParts : IParts → List String
  | .nil => []
  | .consStr _ tl => symsOfParts tl
  | .consExpr e tl => symsOf e ++ symsOfParts tl
def symsOfEList : EList → List String
  | .nil => []
  | .cons e tl => symsOf e ++ symsOfEList tl
def symsOfEntries : EEntries → List String
  | .nil => []
  | .cons _ e tl => symsOf e ++ symsOfEntries tl
def symsOfOptE : OptExpr → List String
  | .noneE => []
  | .someE e => symsOf e
end

/-- Syms of an optional expression. -/
def symsOfOpt : Option Expr → List String
  | some e => symsOf e
  | none => []

/-- Syms of a plain expression list. -/
def symsOfExprList : List Expr → List String
  | [] => []
  | e :: rest => symsOf e ++ symsOfExprList rest

/-- Syms of a keyed expression list. -/
def symsOfPairs : List (String × Expr) → List String
  | [] => []
  | (_, e) :: rest => symsOf e ++ symsOfPairs rest

/-! ### Declarations and parsed documents (spec §3, §4.5)

Modelled from the spec: the YAML parsing layer (§4.3) is abstracted —
each project file is given as its already-parsed structural document
(`ParsedDoc`); the claims under verification are about discovery,
merging, canonicalization and planning, which all operate on parsed
documents. -/

/-- A `config` declaration (spec §3). -/
structure ConfigDecl where
  typeName : Option String := none
  defaultVal : Option Expr := none
  secretCfg : Option Bool := none
  deriving DecidableEq

/-- A resource `get` record (spec §3). -/
structure GetDecl where
  idE : Expr
  state : List (String × Expr) := []
  deriving DecidableEq

/-- Resource options (spec §3); the keys that can carry `sym` references
and the `protect` flag exercised by the tests are modelled. -/
structure ResourceOptions where
  protect : Option Expr := none
  dependsOn : List Expr := []
  parent : Option Expr := none
  provider : Option Expr := none
  providers : List Expr := []
  aliases : List Expr := []
  deriving DecidableEq

/-- A resource declaration (spec §3). -/
structure ResourceDecl where
  typeTok : String
  properties : List (String × Expr) := []
  options : Option ResourceOptions := none
  getB : Option GetDecl := none
  deriving DecidableEq

/-- One parsed project file (spec §3 top-level keys). -/
structure ParsedDoc where
  name : Option String := none
  runtime : Option String := none
  description : Option String := none
  config : List (String × ConfigDecl) := []
  vars : List (String × Expr) := []
  resources : List (String × ResourceDecl) := []
  components : List (String × ResourceDecl) := []
  outputs : List (String × Expr) := []
  deriving DecidableEq

/-- Diagnostic severities (spec §6). -/
inductive Severity where
  | error
  | warning
  deriving DecidableEq

/-- Diagnostic codes (spec §6). -/
inductive DiagCode where
  | syntaxErrorD
  | schemaErrorD
  | schemaWarningD
  | duplicateSymbol
  | unknownBuiltinD
  | typeErrorD
  | indexErrorD
  | decodeErrorD
  | cycleDetected
  | unknownTemplateKeyD
  | unbalancedBlocksD
  | unknownSymbol
  deriving DecidableEq

/-- A diagnostics entry (spec §6); source locations are omitted. -/
structure Diag where
  severity : Severity
  code : DiagCode
  message : String := ""
  deriving DecidableEq

/-- Make a diagnostics entry. -/
def mkDiag (sev : Severity) (c : DiagCode) (msg : String) : Diag :=
  { severity := sev, code := c, message := msg }

/-- The merged project (spec §3). -/
structure Project where
  name : Option String := none
  runtime : Option String := none
  description : Option String := none
  config : List (String × ConfigDecl) := []
  vars : List (String × Expr) := []
  resources : List (String × ResourceDecl) := []
  components : List (String × ResourceDecl) := []
  outputs : List (String × Expr) := []
  source_map : List (String × String) := []
  diagnostics : List Diag := []
  deriving DecidableEq

/-- The payload of one top-level declaration. -/
inductive DeclPayload where
  | config (c : ConfigDecl)
  | variableD (e : Expr)
  | resource (r : ResourceDecl)
  | component (r : ResourceDecl)
  | output (e : Expr)
  deriving DecidableEq

/-- All top-level declarations of a document, in the spec §3 key order. -/
def declsOfDoc (d : ParsedDoc) : List (String × DeclPayload) :=
  d.config.map (fun p => (p.1, DeclPayload.config p.2)) ++
    d.vars.map (fun p => (p.1, DeclPayload.variableD p.2)) ++
    d.resources.map (fun p => (p.1, DeclPayload.resource p.2)) ++
    d.components.map (fun p => (p.1, DeclPayload.component p.2)) ++
    d.outputs.map (fun p => (p.1, DeclPayload.output p.2))

/-- The symbols a document declares, in declaration order. -/
def declaredSymsOfDoc (d : ParsedDoc) : List String :=
  (declsOfDoc d).map (fun p => p.1)

/-- Modelled from the spec: accept one declaration into the project
(spec §4.4): a duplicate symbol emits `DuplicateSymbol` and the first
binding wins; an accepted symbol is recorded in `source_map` at that
moment. -/
def addDecl (path : String) (proj : Project) (s : String)
    (p : DeclPayload) : Project :=
  if (alookup s proj.source_map).isSome then
    { proj with
      diagnostics := proj.diagnostics ++ [mkDiag .error .duplicateSymbol s] }
  else
    let proj1 := { proj with source_map := (s, path) :: proj.source_map }
    match p with
    | .config c => { proj1 with config := proj1.config ++ [(s, c)] }
    | .variableD e => { proj1 with vars := proj1.vars ++ [(s, e)] }
    | .resource r => { proj1 with resources := proj1.resources ++ [(s, r)] }
    | .component r =>
      { proj1 with components := proj1.components ++ [(s, r)] }
    | .output e => { proj1 with outputs := proj1.outputs ++ [(s, e)] }

def addDecls (path : String) : Project → List (String × DeclPayload) → Project
  | proj, [] => proj
  | proj, (s, p) :: rest => addDecls path (addDecl path proj s p) rest

/-- Modelled from the spec: the multi-file merger (spec §4.4) — files are
combined in order, map keys union-merged with first-file-wins semantics. -/
def mergeDocs : Project → List (String × ParsedDoc) → Project
  | proj, [] => proj
  | proj, (path, d) :: rest => mergeDocs (addDecls path proj (declsOfDoc d)) rest

/-- Scalar keys (`name`, `runtime`, `description`) are taken from the main
file (spec §4.4). -/
def initProject (d : ParsedDoc) : Project :=
  { name := d.name, runtime := d.runtime, description := d.description }

/-! ### Discovery (spec §4.1) -/

/-- Discovery result (spec §4.1). -/
structure Discovery where
  main_file : String
  additional_files : List String
  file_count : Nat
  deriving DecidableEq

/-- Modelled from the spec: an overlay is any `Pulumi.*.yaml` sibling of
the primary manifest (spec §4.1, treating every such sibling as an
overlay per the spec's simple case). -/
def isOverlayName (n : String) : Bool :=
  ("Pulumi.").data.isPrefixOf n.data && (".yaml").data.isSuffixOf n.data &&
    n ≠ "Pulumi.yaml"

/-- Modelled from the spec: `discover_project_files` (spec §4.1, §7): the
directory is the optional list of (file name, parsed content) pairs
(`none` = missing directory).  The primary file must be named
`Pulumi.yaml`; its absence is the fatal "missing primary manifest" error.
Overlays are ordered lexicographically. -/
def discover_project_files (fs : Option (List (String × ParsedDoc))) :
    Except Err Discovery :=
  match fs with
  | none => .error .missingDirectory
  | some files =>
    let names := files.map (fun p => p.1)
    if strMem "Pulumi.yaml" names then
      let overlays := sortStrings (names.filter isOverlayName)
      .ok ⟨"Pulumi.yaml", overlays, 1 + overlays.length⟩
    else .error .missingManifest

/-- The project files in merge order: the main file first, then overlays
lexicographically (spec §4.1, §4.4). -/
def project_files (files : List (String × ParsedDoc)) :
    Except Err (List (String × ParsedDoc)) := do
  let disc ← discover_project_files (some files)
  match alookup disc.main_file files with
  | none => .error .missingManifest
  | some mainDoc =>
    .ok ((disc.main_file, mainDoc) ::
      disc.additional_files.filterMap
        (fun n => (alookup n files).map (fun d => (n, d))))

/-- Modelled from the spec: `load_project` (spec §6) — discovery, ordering
and merging; fatal errors surface as a single error result (spec §7). -/
def load_project (fs : Option (List (String × ParsedDoc))) :
    Except Err Project :=
  match fs with
  | none => .error .missingDirectory
  | some files => do
    let ordered ← project_files files
    match ordered with
    | [] => .error .missingManifest
    | (_, d0) :: _ => .ok (mergeDocs (initProject d0) ordered)

/-! ### Planner (spec §4.5, §4.7) -/

/-- ASCII-lowercase the first character, keep the remainder unchanged. -/
def lowerFirstAscii (s : String) : String :=
  match s.data with
  | [] => s
  | c :: rest => String.mk (c.toLower :: rest)

/-- Modelled from the spec: resource type-token canonicalization
(spec §4.5): `ns:mod:Name` is rewritten to `ns:mod/lower(Name):Name`; a
token already containing `/` is left as-is; tokens of any other shape are
kept unchanged (they produce a `SchemaError` diagnostic, emitted in
`mkPlan`). -/
def canonicalize_type_token (tok : String) : String :=
  if tok.data.any (fun c => c = '/') then tok
  else
    match splitOnChar ':' tok with
    | [ns, md, nm] => ns ++ ":" ++ md ++ "/" ++ lowerFirstAscii nm ++ ":" ++ nm
    | _ => tok

/-- Whether a type token has an acceptable shape (spec §4.5). -/
def type_token_shape_ok (tok : String) : Bool :=
  tok.data.any (fun c => c = '/') || (splitOnChar ':' tok).length = 3

/-- A planner node (spec §3). -/
inductive PlanNode where
  | config (name : String) (c : ConfigDecl)
  | variableN (name : String) (value : Expr)
  | resource (name : String) (type_token : String)
      (properties : List (String × Expr)) (options : Option ResourceOptions)
      (getB : Option GetDecl)
  deriving DecidableEq

/-- The execution plan (spec §3). -/
structure Plan where
  project_name : String
  nodes : List PlanNode
  outputs : List (String × Expr)
  source_map : List (String × String)
  diagnostics : List Diag
  levels : List (List String)
  deriving DecidableEq

/-- Find the declaration bound to a symbol. -/
def planDeclOf (proj : Project) (s : String) : Option DeclPayload :=
  match alookup s proj.config with
  | some c => some (.config c)
  | none =>
    match alookup s proj.vars with
    | some e => some (.variableD e)
    | none =>
      match alookup s proj.resources with
      | some r => some (.resource r)
      | none =>
        match alookup s proj.components with
        | some r => some (.component r)
        | none =>
          match alookup s proj.outputs with
          | some e => some (.output e)
          | none => none

/-- Kind priority for deterministic ordering (spec §4.7:
config < variable < resource < component; outputs last). -/
def kindPriority : DeclPayload → Nat
  | .config _ => 0
  | .variableD _ => 1
  | .resource _ => 2
  | .component _ => 3
  | .output _ => 4

/-- All plannable symbols, in declaration order. -/
def planSyms (proj : Project) : List String :=
  proj.config.map (fun p => p.1) ++ proj.vars.map (fun p => p.1) ++
    proj.resources.map (fun p => p.1) ++ proj.components.map (fun p => p.1) ++
    proj.outputs.map (fun p => p.1)

/-- Syms referenced from resource options: `dependsOn`, `parent`,
`provider`, `providers`, `aliases` contribute edges (spec §4.7). -/
def optionsSyms (o : ResourceOptions) : List String :=
  symsOfExprList o.dependsOn ++ symsOfOpt o.parent ++ symsOfOpt o.provider ++
    symsOfExprList o.providers ++ symsOfExprList o.aliases

/-- All syms referenced from a resource declaration. -/
def resourceSyms (r : ResourceDecl) : List String :=
  symsOfPairs r.properties ++
    (match r.options with
     | some o => optionsSyms o
     | none => []) ++
    (match r.getB with
     | some g => symsOf g.idE ++ symsOfPairs g.state
     | none => [])

/-- The raw referenced symbols of one declaration: config declarations
have no outgoing edges (spec §4.7). -/
def rawDeps (proj : Project) (s : String) : List String :=
  match planDeclOf proj s with
  | some (.config _) => []
  | some (.variableD e) => symsOf e
  | some (.resource r) => resourceSyms r
  | some (.component r) => resourceSyms r
  | some (.output e) => symsOf e
  | none => []

/-- Modelled from the spec: the inferred dependency edges of a
declaration — an edge `s → d` exists when `d` names another declaration
(spec §4.7); unmatched bases contribute no edge. -/
def project_deps (proj : Project) (s : String) : List String :=
  (rawDeps proj s).filter (fun d => strMem d (planSyms proj))

/-- The remaining symbols whose remaining dependencies are exhausted. -/
def kahnReady (deps : String → List String) (remaining : List String) :
    List String :=
  remaining.filter
    (fun s => ((deps s).filter (fun d => strMem d remaining)).isEmpty)

/-- Modelled from the spec: Kahn-style topological layering (spec §4.7).
Each level is the set of remaining symbols with no remaining
dependencies; the recursion stops when no symbol is ready (cycle
members stay unplaced).  Fuel: the symbol count suffices, since every
productive round removes at least one symbol. -/
def kahnLevels (deps : String → List String) : Nat → List String →
    List (List String)
  | 0, _ => []
  | fuel + 1, remaining =>
    if (kahnReady deps remaining).isEmpty then []
    else
      kahnReady deps remaining ::
        kahnLevels deps fuel
          (remaining.filter (fun s => !strMem s (kahnReady deps remaining)))

/-- Plannable symbols sorted by (kind priority, name) so that every level
comes out deterministically ordered (spec §4.7). -/
def sortPlanSyms (proj : Project) : List String :=
  sortLe
    (fun a b =>
      let pa := (planDeclOf proj a).elim 5 kindPriority
      let pb := (planDeclOf proj b).elim 5 kindPriority
      decide (pa < pb) || (decide (pa = pb) && strLeB a b))
    (planSyms proj)

/-- Modelled from the spec: plan assembly (spec §4.7, §3): nodes for
config, variable and resource declarations (resource type tokens
canonicalized), outputs, the source map, accumulated diagnostics
(with `SchemaError` for ill-shaped tokens and `CycleDetected` for
unplaced symbols), and the topological levels. -/
def mkPlan (proj : Project) : Plan :=
  let syms := sortPlanSyms proj
  let levels := kahnLevels (project_deps proj) syms.length syms
  let placed := levels.flatten
  let leftovers := syms.filter (fun s => !strMem s placed)
  let cycleDiags : List Diag :=
    if leftovers.isEmpty then []
    else [mkDiag .error .cycleDetected (joinWithSep "," leftovers)]
  let shapeDiags : List Diag :=
    (proj.resources ++ proj.components).filterMap
      (fun p =>
        if type_token_shape_ok p.2.typeTok then none
        else some (mkDiag .error .schemaErrorD p.1))
  { project_name := proj.name.getD ""
  , nodes :=
      proj.config.map (fun p => PlanNode.config p.1 p.2) ++
        proj.vars.map (fun p => PlanNode.variableN p.1 p.2) ++
        (proj.resources ++ proj.components).map
          (fun p => PlanNode.resource p.1 (canonicalize_type_token p.2.typeTok)
            p.2.properties p.2.options p.2.getB)
  , outputs := proj.outputs
  , source_map := proj.source_map
  , diagnostics := proj.diagnostics ++ shapeDiags ++ cycleDiags
  , levels := levels }

/-- Modelled from the spec: `create_execution_plan` (spec §6) — load the
project and assemble the plan. -/
def create_execution_plan (fs : Option (List (String × ParsedDoc))) :
    Except Err Plan :=
  (load_project fs).map mkPlan

/-! ### Binary discovery (translated from
`src/crates/pulumi-rs-yaml-python/python/pulumi_yaml_rs/_find_binary.py`)

The filesystem is abstracted as the list of existing file paths;
`binDir` stands for `_BIN_DIR` (the absolute path of the package's `bin`
directory) and `suffix` for `sysconfig.get_config_var("EXE")`. -/

/-- `find_language_binary`: the fixed binary name inside the package
`bin` directory, `FileNotFoundError` when that file does not exist. -/
def find_language_binary (binDir : String) (files : List String)
    (suffix : String) : Except Err String :=
  let path := binDir ++ "/" ++ "pulumi-language-yaml" ++ suffix
  if strMem path files then .ok path else .error .fileNotFoundError

/-- `find_converter_binary`: the converter variant of the same lookup. -/
def find_converter_binary (binDir : String) (files : List String)
    (suffix : String) : Except Err String :=
  let path := binDir ++ "/" ++ "pulumi-converter-yaml" ++ suffix
  if strMem path files then .ok path else .error .fileNotFoundError

/-! ### Proof-support definitions -/

mutual
/-- The pure mirror of `py_to_value` on well-formed values (used to state
the boundary round-trip). -/
def jToR : JVal → RVal
  | .none => .null
  | .bool b => .bool b
  | .int n => .int n
  | .float bits => .float bits
  | .str s => .str s
  | .list xs => .list (jToRList xs)
  | .dict es => .map (jToRDict es)
def jToRList : JList → RList
  | .nil => .nil
  | .cons v tl => .cons (jToR v) (jToRList tl)
def jToRDict : JDict → RMap
  | .nil => .nil
  | .cons k v tl => .cons k (jToR v) (jToRDict tl)
end

/-- Index of the level containing a symbol, if any. -/
def findLevel : List (List String) → String → Option Nat
  | [], _ => none
  | l :: ls, s =>
    if strMem s l then some 0 else (findLevel ls s).map (fun j => j + 1)

/-- All symbols declared across a file list, in order. -/
def declaredSyms : List (String × ParsedDoc) → List String
  | [] => []
  | (_, d) :: rest => declaredSymsOfDoc d ++ declaredSyms rest

/-- The file that first declares a symbol, scanning files in merge
order. -/
def firstDeclaringFile : List (String × ParsedDoc) → String → Option String
  | [], _ => none
  | (p, d) :: rest, s =>
    if strMem s (declaredSymsOfDoc d) then some p
    else firstDeclaringFile rest s

/-! ### Concrete seed projects (from the test-suite scenarios) -/

/-- The single-resource project of `test_plan_type_token_canonicalized`. -/
def gcpTokenDoc : ParsedDoc :=
  { name := some "token-plan"
  , runtime := some "yaml"
  , resources := [("bucket", { typeTok := "gcp:storage:Bucket"
                             , properties := [("name", Expr.strE "my-bucket")] })] }

/-- The two-resource `dependsOn` project of `test_plan_resource_options` /
spec §8 seed 4. -/
def dependsOnDoc : ParsedDoc :=
  { name := some "opts-plan"
  , runtime := some "yaml"
  , resources :=
      [ ("bucketA", { typeTok := "gcp:storage:Bucket"
                    , properties := [("name", Expr.strE "bucket-a")] })
      , ("bucketB", { typeTok := "gcp:storage:Bucket"
                    , properties := [("name", Expr.strE "bucket-b")]
                    , options := some { protect := some (Expr.boolE true)
                                      , dependsOn := [Expr.sym "bucketA" []] } })] }

/-- The main manifest of `test_plan_source_map_multi_file`. -/
def multiMainDoc : ParsedDoc := { name := some "multi-plan", runtime := some "yaml" }

/-- The `Pulumi.storage.yaml` overlay of `test_plan_source_map_multi_file`. -/
def storageOverlayDoc : ParsedDoc :=
  { resources := [("storageBucket", { typeTok := "gcp:storage:Bucket"
                                    , properties := [("name", Expr.strE "storage-bucket")] })] }

/-! ## Lemmas: boundary conversion -/

@[simp]
theorem ok_bind {ε α β : Type} (a : α) (f : α → Except ε β) :
    (Except.ok a : Except ε α) >>= f = f a := rfl

@[simp]
theorem error_bind {ε α β : Type} (e : ε) (f : α → Except ε β) :
    (Except.error e : Except ε α) >>= f = Except.error e := rfl

@[simp]
theorem some_bind {α β : Type} (a : α) (f : α → Option β) :
    (some a : Option α) >>= f = f a := rfl

@[simp]
theorem none_bind {α β : Type} (f : α → Option β) :
    (none : Option α) >>= f = none := rfl

mutual
theorem py_to_value_of_jwf :
    ∀ v : JVal, jwf v = true → py_to_value v = .ok (jToR v)
  | .none, _ => rfl
  | .bool _, _ => rfl
  | .int n, h => by
    simp only [jwf, decide_eq_true_eq] at h
    simp [py_to_value, jToR, h]
  | .float _, _ => rfl
  | .str _, _ => rfl
  | .list xs, h => by
    simp only [jwf] at h
    simp [py_to_value, jToR, py_list_to_value_of_jwf xs h]
  | .dict es, h => by
    simp only [jwf] at h
    simp [py_to_value, jToR, py_dict_to_value_of_jwf es h]
theorem py_list_to_value_of_jwf :
    ∀ xs : JList, jwf_list xs = true → py_list_to_value xs = .ok (jToRList xs)
  | .nil, _ => rfl
  | .cons v tl, h => by
    simp only [jwf_list, Bool.and_eq_true] at h
    simp [py_list_to_value, jToRList, py_to_value_of_jwf v h.1,
      py_list_to_value_of_jwf tl h.2]
theorem py_dict_to_value_of_jwf :
    ∀ es : JDict, jwf_dict es = true → py_dict_to_value es = .ok (jToRDict es)
  | .nil, _ => rfl
  | .cons k v tl, h => by
    simp only [jwf_dict, Bool.and_eq_true] at h
    simp [py_dict_to_value, jToRDict, py_to_value_of_jwf v h.1,
      py_dict_to_value_of_jwf tl h.2]
end

mutual
theorem value_to_py_jToR : ∀ v : JVal, value_to_py (jToR v) = v
  | .none => rfl
  | .bool _ => rfl
  | .int _ => rfl
  | .float _ => rfl
  | .str _ => rfl
  | .list xs => by simp [jToR, value_to_py, value_list_to_py_jToRList xs]
  | .dict es => by simp [jToR, value_to_py, value_map_to_py_jToRDict es]
theorem value_list_to_py_jToRList :
    ∀ xs : JList, value_list_to_py (jToRList xs) = xs
  | .nil => rfl
  | .cons v tl => by
    simp [jToRList, value_list_to_py, value_to_py_jToR v,
      value_list_to_py_jToRList tl]
theorem value_map_to_py_jToRDict :
    ∀ es : JDict, value_map_to_py (jToRDict es) = es
  | .nil => rfl
  | .cons k v tl => by
    simp [jToRDict, value_map_to_py, value_to_py_jToR v,
      value_map_to_py_jToRDict tl]
end

mutual
theorem py_to_value_error :
    ∀ (v : JVal) (e : Err), py_to_value v = .error e → e = .typeError
  | .int n, e, h => by
    by_cases hn : int64Min ≤ n ∧ n ≤ int64Max
    · simp [py_to_value, hn] at h
    · simp [py_to_value, hn] at h
      exact h.symm
  | .list xs, e, h => by
    cases hxs : py_list_to_value xs with
    | ok r => simp [py_to_value, hxs] at h
    | error e2 =>
      simp [py_to_value, hxs] at h
      exact h ▸ py_list_to_value_error xs e2 hxs
  | .dict es, e, h => by
    cases hes : py_dict_to_value es with
    | ok r => simp [py_to_value, hes] at h
    | error e2 =>
      simp [py_to_value, hes] at h
      exact h ▸ py_dict_to_value_error es e2 hes
theorem py_list_to_value_error :
    ∀ (xs : JList) (e : Err), py_list_to_value xs = .error e → e = .typeError
  | .cons v tl, e, h => by
    cases hv : py_to_value v with
    | error e2 =>
      simp [py_list_to_value, hv] at h
      exact h ▸ py_to_value_error v e2 hv
    | ok r =>
      cases htl : py_list_to_value tl with
      | error e2 =>
        simp [py_list_to_value, hv, htl] at h
        exact h ▸ py_list_to_value_error tl e2 htl
      | ok rs => simp [py_list_to_value, hv, htl] at h
theorem py_dict_to_value_error :
    ∀ (es : JDict) (e : Err), py_dict_to_value es = .error e → e = .typeError
  | .cons k v tl, e, h => by
    cases hv : py_to_value v with
    | error e2 =>
      simp [py_dict_to_value, hv] at h
      exact h ▸ py_to_value_error v e2 hv
    | ok r =>
      cases htl : py_dict_to_value tl with
      | error e2 =>
        simp [py_dict_to_value, hv, htl] at h
        exact h ▸ py_dict_to_value_error tl e2 htl
      | ok rs => simp [py_dict_to_value, hv, htl] at h
end

theorem rlistLength_jToRList : ∀ xs : JList, rlistLength (jToRList xs) = jlistLength xs
  | .nil => rfl
  | .cons v tl => by simp [jToRList, rlistLength, jlistLength, rlistLength_jToRList tl]

theorem rlistGet_jToRList :
    ∀ (xs : JList) (n : Nat), rlistGet (jToRList xs) n = (jlistGet xs n).map jToR
  | .nil, _ => rfl
  | .cons v tl, 0 => rfl
  | .cons v tl, n + 1 => by simp [jToRList, rlistGet, jlistGet, rlistGet_jToRList tl n]

theorem jlistGet_some_lt :
    ∀ (xs : JList) (n : Nat) (v : JVal), jlistGet xs n = some v → n < jlistLength xs
  | .nil, n, v, h => by simp [jlistGet] at h
  | .cons x tl, 0, v, _ => by simp [jlistLength]
  | .cons x tl, n + 1, v, h => by
    simp only [jlistGet] at h
    have := jlistGet_some_lt tl n v h
    simp [jlistLength]
    omega

/-- Evaluation of `select` through the boundary, reduced to the native
side. -/
theorem evaluate_select_unfold (i : Int) (xs : JList)
    (hwf : jwf_list xs = true) (hi : int64Min ≤ i ∧ i ≤ int64Max) :
    evaluate_builtin "select"
        (.list (.cons (.int i) (.cons (.list xs) .nil))) =
      (eval_select (.list (.cons (.int i) (.cons (.list (jToRList xs)) .nil)))).map
        value_to_py := by
  have harg : py_to_value (.list (.cons (.int i) (.cons (.list xs) .nil))) =
      .ok (.list (.cons (.int i) (.cons (.list (jToRList xs)) .nil))) := by
    have : jwf (.list (.cons (.int i) (.cons (.list xs) .nil))) = true := by
      simp [jwf, jwf_list, hwf, decide_eq_true_eq]
      exact hi
    simpa [jToR, jToRList] using py_to_value_of_jwf _ this
  simp only [evaluate_builtin, harg, eval_builtin_core]
  norm_num
  cases eval_select (.list (.cons (.int i) (.cons (.list (jToRList xs)) .nil))) <;>
    simp [Except.map]

/-- Claim C4: `evaluate_builtin("select", [i, xs])` returns the element of
list `xs` at 0-based index `i` for every in-range `i`, and returns an
`IndexError` for every negative or out-of-range `i`; in particular
`select` on `[1, ["a","b","c"]]` returns `"b"` and `select` on
`[5, ["a"]]` is an `IndexError`.  (The list is boundary-well-formed and
the index fits in `int64`, as required for the argument to cross the
boundary at all.) -/
theorem c4_select_indexing (i : Int) (xs : JList)
    (hwf : jwf_list xs = true) (hi : int64Min ≤ i ∧ i ≤ int64Max) :
    (∀ v : JVal, 0 ≤ i → jlistGet xs i.toNat = some v →
       evaluate_builtin "select"
         (.list (.cons (.int i) (.cons (.list xs) .nil))) = .ok v) ∧
    (i < 0 ∨ (jlistLength xs : Int) ≤ i →
       evaluate_builtin "select"
         (.list (.cons (.int i) (.cons (.list xs) .nil))) =
         .error .indexError) ∧
    evaluate_builtin "select"
      (.list (.cons (.int 1) (.cons (.list (.cons (.str "a")
        (.cons (.str "b") (.cons (.str "c") .nil)))) .nil))) =
      .ok (.str "b") ∧
    evaluate_builtin "select"
      (.list (.cons (.int 5) (.cons (.list (.cons (.str "a") .nil)) .nil))) =
      .error .indexError := by
  refine ⟨?_, ?_, by decide, by decide⟩
  · intro v h0 hget
    rw [evaluate_select_unfold i xs hwf hi]
    have hlt := jlistGet_some_lt xs i.toNat v hget
    have hcond : 0 ≤ i ∧ i < (rlistLength (jToRList xs) : Int) := by
      refine ⟨h0, ?_⟩
      rw [rlistLength_jToRList]
      omega
    simp [eval_select, hcond, rlistGet_jToRList, hget, Except.map,
      value_to_py_jToR]
  · intro hout
    rw [evaluate_select_unfold i xs hwf hi]
    have hcond : ¬(0 ≤ i ∧ i < (rlistLength (jToRList xs) : Int)) := by
      rw [rlistLength_jToRList]
      omega
    simp [eval_select, hcond, Except.map]

theorem c4_select_indexing_witness :
    evaluate_builtin "select"
      (.list (.cons (.int 1) (.cons (.list (.cons (.str "a")
        (.cons (.str "b") (.cons (.str "c") .nil)))) .nil))) =
      .ok (.str "b") :=
  (c4_select_indexing 1
      (.cons (.str "a") (.cons (.str "b") (.cons (.str "c") .nil)))
      (by decide) (by decide)).1 (.str "b") (by decide) (by decide)

/-- Claim C6: boundary type conversion round-trips for every value built
from null, bool, int64, float64, string, list, and string-keyed map:
passing such a value through `evaluate_builtin("select", [0, [value]])`
returns the value unchanged (so types are preserved: the tagged
constructors of `JVal` distinguish int from float); a conversion failure
at the boundary is a `TypeError`. -/
theorem c6_conversion_roundtrip (v : JVal) (h : jwf v = true) :
    evaluate_builtin "select"
        (.list (.cons (.int 0) (.cons (.list (.cons v .nil)) .nil))) =
      .ok v ∧
    (∀ (w : JVal) (e : Err), py_to_value w = .error e → e = .typeError) := by
  constructor
  · have hwf : jwf_list (.cons v .nil) = true := by simp [jwf_list, h]
    have h0 : int64Min ≤ (0 : Int) ∧ (0 : Int) ≤ int64Max := by decide
    rw [evaluate_select_unfold 0 (.cons v .nil) hwf h0]
    simp [eval_select, jToRList, rlistLength, rlistGet, Except.map,
      value_to_py_jToR]
  · exact py_to_value_error

theorem c6_conversion_roundtrip_witness :
    evaluate_builtin "select"
        (.list (.cons (.int 0) (.cons (.list (.cons
          (.list (.cons (.int 42) (.cons (.float 4614253070214989087)
            (.cons (.dict (.cons "key" (.str "value") .nil)) .nil))))
          .nil)) .nil))) =
      .ok (.list (.cons (.int 42) (.cons (.float 4614253070214989087)
        (.cons (.dict (.cons "key" (.str "value") .nil)) .nil)))) :=
  (c6_conversion_roundtrip _ (by decide)).1

/-! ## Lemmas: Base64 and UTF-8 round-trip -/

theorem b64CharVal_b64Char : ∀ n, n < 64 → b64CharVal (b64Char n) = some n := by
  decide

theorem b64Char_ne_pad : ∀ n, n < 64 → ¬(b64Char n = '=') := by decide

theorem utf8EncodeCharM_lt_256 (c : Char) : ∀ b ∈ utf8EncodeCharM c, b < 256 := by
  have hval : c.toNat < 0xD800 ∨ (0xDFFF < c.toNat ∧ c.toNat < 0x110000) := by
    have hv := c.valid
    simp [UInt32.isValidChar, Nat.isValidChar] at hv
    exact hv
  intro b hb
  by_cases h1 : c.toNat < 0x80
  · simp [utf8EncodeCharM, h1] at hb
    omega
  · by_cases h2 : c.toNat < 0x800
    · simp [utf8EncodeCharM, h1, h2] at hb
      rcases hb with h | h <;> omega
    · by_cases h3 : c.toNat < 0x10000
      · simp [utf8EncodeCharM, h1, h2, h3] at hb
        rcases hb with h | h | h <;> omega
      · simp [utf8EncodeCharM, h1, h2, h3] at hb
        rcases hb with h | h | h | h <;> omega

theorem utf8EncodeList_lt_256 : ∀ (cs : List Char), ∀ b ∈ utf8EncodeList cs, b < 256
  | [] => by simp [utf8EncodeList]
  | c :: cs => by
    intro b hb
    simp only [utf8EncodeList, List.mem_append] at hb
    rcases hb with h | h
    · exact utf8EncodeCharM_lt_256 c b h
    · exact utf8EncodeList_lt_256 cs b h

theorem b64_decode_encode :
    ∀ (bs : List Nat) (fuel : Nat), bs.length ≤ fuel → (∀ b ∈ bs, b < 256) →
      b64DecodeGo fuel (b64EncodeList bs) = some bs
  | [], _, _, _ => by simp [b64EncodeList, b64DecodeGo]
  | [b1], fuel, hf, hb => by
    obtain ⟨f, rfl⟩ : ∃ f, fuel = f + 1 := by
      cases fuel
      · simp at hf
      · exact ⟨_, rfl⟩
    have hb1 : b1 < 256 := hb b1 (by simp)
    have e1 := b64CharVal_b64Char (b1 / 4) (by omega)
    have e2 := b64CharVal_b64Char ((b1 % 4) * 16) (by omega)
    simp [b64EncodeList, b64DecodeGo, e1, e2]
    omega
  | [b1, b2], fuel, hf, hb => by
    obtain ⟨f, rfl⟩ : ∃ f, fuel = f + 1 := by
      cases fuel
      · simp at hf
      · exact ⟨_, rfl⟩
    have hb1 : b1 < 256 := hb b1 (by simp)
    have hb2 : b2 < 256 := hb b2 (by simp)
    have e1 := b64CharVal_b64Char (b1 / 4) (by omega)
    have e2 := b64CharVal_b64Char ((b1 % 4) * 16 + b2 / 16) (by omega)
    have e3 := b64CharVal_b64Char ((b2 % 16) * 4) (by omega)
    have n3 := b64Char_ne_pad ((b2 % 16) * 4) (by omega)
    simp [b64EncodeList, b64DecodeGo, e1, e2, e3, n3]
    omega
  | b1 :: b2 :: b3 :: rest, fuel, hf, hb => by
    obtain ⟨f, rfl⟩ : ∃ f, fuel = f + 1 := by
      cases fuel
      · simp at hf
      · exact ⟨_, rfl⟩
    have hb1 : b1 < 256 := hb b1 (by simp)
    have hb2 : b2 < 256 := hb b2 (by simp)
    have hb3 : b3 < 256 := hb b3 (by simp)
    have e1 := b64CharVal_b64Char (b1 / 4) (by omega)
    have e2 := b64CharVal_b64Char ((b1 % 4) * 16 + b2 / 16) (by omega)
    have e3 := b64CharVal_b64Char ((b2 % 16) * 4 + b3 / 64) (by omega)
    have e4 := b64CharVal_b64Char (b3 % 64) (by omega)
    have n3 := b64Char_ne_pad ((b2 % 16) * 4 + b3 / 64) (by omega)
    have n4 := b64Char_ne_pad (b3 % 64) (by omega)
    have ih := b64_decode_encode rest f
      (by simp at hf; omega) (fun b h => hb b (by simp [h]))
    simp [b64EncodeList, b64DecodeGo, e1, e2, e3, e4, n3, n4, ih]
    omega

theorem b64EncodeList_length_ge : ∀ bs : List Nat, bs.length ≤ (b64EncodeList bs).length
  | [] => Nat.le_refl 0
  | [_] => by simp [b64EncodeList]
  | [_, _] => by simp [b64EncodeList]
  | _ :: _ :: _ :: rest => by
    have := b64EncodeList_length_ge rest
    simp [b64EncodeList]
    omega

theorem utf8_decode_encode_char (c : Char) (fuel : Nat) (tail : List Nat) :
    utf8DecodeGo (fuel + 1) (utf8EncodeCharM c ++ tail) =
      (utf8DecodeGo fuel tail).map (fun cs => c :: cs) := by
  have hval : c.toNat < 0xD800 ∨ (0xDFFF < c.toNat ∧ c.toNat < 0x110000) := by
    have hv := c.valid
    simp [UInt32.isValidChar, Nat.isValidChar] at hv
    exact hv
  have hofn : Char.ofNat c.toNat = c := Char.ofNat_toNat c
  by_cases h1 : c.toNat < 0x80
  · simp only [utf8EncodeCharM, h1, if_pos, List.cons_append, List.nil_append]
    simp [utf8DecodeGo, h1, hofn]
    cases utf8DecodeGo fuel tail <;> simp
  · by_cases h2 : c.toNat < 0x800
    · simp only [utf8EncodeCharM, h1, h2, if_neg, if_pos, List.cons_append,
        List.nil_append, ite_false, ite_true]
      have hv2 : (0xC0 + c.toNat / 64 - 0xC0) * 64 +
          (0x80 + c.toNat % 64 - 0x80) = c.toNat := by omega
      simp [utf8DecodeGo, show ¬(0xC0 + c.toNat / 64 < 0x80) from by omega,
        show ¬(0xC0 + c.toNat / 64 < 0xC0) from by omega,
        show 0xC0 + c.toNat / 64 < 0xE0 from by omega,
        show 0x80 ≤ 0x80 + c.toNat % 64 ∧ 0x80 + c.toNat % 64 < 0xC0 from
          by omega,
        hv2, show 0x80 ≤ c.toNat from by omega, hofn]
      cases utf8DecodeGo fuel tail <;> simp
      rw [show c.toNat / 64 * 64 + c.toNat % 64 = c.toNat from by omega]
      exact ⟨by omega, hofn⟩
    · by_cases h3 : c.toNat < 0x10000
      · simp only [utf8EncodeCharM, h1, h2, h3, if_neg, if_pos,
          List.cons_append, List.nil_append, ite_false, ite_true]
        have hv3 : (0xE0 + c.toNat / 4096 - 0xE0) * 4096 +
            (0x80 + c.toNat / 64 % 64 - 0x80) * 64 +
            (0x80 + c.toNat % 64 - 0x80) = c.toNat := by omega
        simp [utf8DecodeGo, show ¬(0xE0 + c.toNat / 4096 < 0x80) from by omega,
          show ¬(0xE0 + c.toNat / 4096 < 0xC0) from by omega,
          show ¬(0xE0 + c.toNat / 4096 < 0xE0) from by omega,
          show 0xE0 + c.toNat / 4096 < 0xF0 from by omega,
          show (0x80 ≤ 0x80 + c.toNat / 64 % 64 ∧
            0x80 + c.toNat / 64 % 64 < 0xC0) ∧
            0x80 ≤ 0x80 + c.toNat % 64 ∧ 0x80 + c.toNat % 64 < 0xC0 from
            by omega,
          hv3, show 0x800 ≤ c.toNat from by omega,
          show ¬(0xD800 ≤ c.toNat ∧ c.toNat < 0xE000) from by omega, hofn]
        cases utf8DecodeGo fuel tail <;> simp
        rw [show c.toNat / 4096 * 4096 + c.toNat / 64 % 64 * 64 +
          c.toNat % 64 = c.toNat from by omega]
        exact ⟨by omega, hofn⟩
      · simp only [utf8EncodeCharM, h1, h2, h3, if_neg, if_pos,
          List.cons_append, List.nil_append, ite_false, ite_true]
        have hhi : c.toNat < 0x110000 := by omega
        have hv4 : (0xF0 + c.toNat / 262144 - 0xF0) * 262144 +
            (0x80 + c.toNat / 4096 % 64 - 0x80) * 4096 +
            (0x80 + c.toNat / 64 % 64 - 0x80) * 64 +
            (0x80 + c.toNat % 64 - 0x80) = c.toNat := by omega
        simp [utf8DecodeGo,
          show ¬(0xF0 + c.toNat / 262144 < 0x80) from by omega,
          show ¬(0xF0 + c.toNat / 262144 < 0xC0) from by omega,
          show ¬(0xF0 + c.toNat / 262144 < 0xE0) from by omega,
          show ¬(0xF0 + c.toNat / 262144 < 0xF0) from by omega,
          show 0xF0 + c.toNat / 262144 < 0xF8 from by omega,
          show (0x80 ≤ 0x80 + c.toNat / 4096 % 64 ∧
              0x80 + c.toNat / 4096 % 64 < 0xC0) ∧
              (0x80 ≤ 0x80 + c.toNat / 64 % 64 ∧
              0x80 + c.toNat / 64 % 64 < 0xC0) ∧
              0x80 ≤ 0x80 + c.toNat % 64 ∧ 0x80 + c.toNat % 64 < 0xC0 from
            by omega,
          hv4, show 0x10000 ≤ c.toNat ∧ c.toNat < 0x110000 from by omega,
          hofn]
        cases utf8DecodeGo fuel tail <;> simp
        rw [show c.toNat / 262144 * 262144 + c.toNat / 4096 % 64 * 4096 +
          c.toNat / 64 % 64 * 64 + c.toNat % 64 = c.toNat from by omega]
        exact ⟨by omega, hofn⟩

theorem utf8_decode_encode :
    ∀ (cs : List Char) (fuel : Nat), cs.length ≤ fuel →
      utf8DecodeGo fuel (utf8EncodeList cs) = some cs
  | [], _, _ => by simp [utf8EncodeList, utf8DecodeGo]
  | c :: cs, fuel, hf => by
    obtain ⟨f, rfl⟩ : ∃ f, fuel = f + 1 := by
      cases fuel
      · simp at hf
      · exact ⟨_, rfl⟩
    rw [utf8EncodeList, utf8_decode_encode_char c f (utf8EncodeList cs),
      utf8_decode_encode cs f (by simp at hf; omega)]
    rfl

theorem utf8EncodeCharM_length_pos (c : Char) : 1 ≤ (utf8EncodeCharM c).length := by
  by_cases h1 : c.toNat < 128 <;> by_cases h2 : c.toNat < 2048 <;>
    by_cases h3 : c.toNat < 65536 <;> simp [utf8EncodeCharM, h1, h2, h3]

theorem utf8EncodeList_length_ge :
    ∀ cs : List Char, cs.length ≤ (utf8EncodeList cs).length
  | [] => Nat.le_refl 0
  | c :: cs => by
    have h1 := utf8EncodeCharM_length_pos c
    have h2 := utf8EncodeList_length_ge cs
    simp [utf8EncodeList]
    omega

theorem string_mk_data (l : List Char) : (String.mk l).data = l := rfl

theorem string_data_mk (s : String) : String.mk s.data = s := by cases s; rfl

theorem fromBase64_toBase64 (s : String) : fromBase64 (toBase64 s) = some s := by
  unfold toBase64 fromBase64 b64DecodeList utf8DecodeList
  rw [string_mk_data,
    b64_decode_encode (utf8EncodeList s.data) _
      (b64EncodeList_length_ge (utf8EncodeList s.data))
      (utf8EncodeList_lt_256 s.data)]
  rw [some_bind,
    utf8_decode_encode s.data _ (utf8EncodeList_length_ge s.data)]
  rw [some_bind, string_data_mk]

/-- Claim C5: `evaluate_builtin("toBase64", s)` returns the standard
unwrapped Base64 encoding of string `s`, and for every string `s`,
`evaluate_builtin("fromBase64", evaluate_builtin("toBase64", s)) == s`;
in particular `toBase64("hello") == "aGVsbG8="` and
`fromBase64("aGVsbG8=") == "hello"`; an invalid Base64 input to
`fromBase64` is a `DecodeError` (every failure of `fromBase64` carries
that code, and the malformed input below does fail). -/
theorem c5_base64_builtins :
    (∀ (s : String) (t : JVal),
       evaluate_builtin "toBase64" (.str s) = .ok t →
       evaluate_builtin "fromBase64" t = .ok (.str s)) ∧
    evaluate_builtin "toBase64" (.str "hello") = .ok (.str "aGVsbG8=") ∧
    evaluate_builtin "fromBase64" (.str "aGVsbG8=") = .ok (.str "hello") ∧
    (∀ (s : String) (e : Err),
       evaluate_builtin "fromBase64" (.str s) = .error e →
       e = .decodeError) ∧
    evaluate_builtin "fromBase64" (.str "not-base64!") =
      .error .decodeError := by
  refine ⟨?_, by decide, by decide, ?_, by decide⟩
  · intro s t h
    simp [evaluate_builtin, py_to_value, eval_builtin_core, eval_toBase64,
      value_to_py] at h
    subst h
    simp [evaluate_builtin, py_to_value, eval_builtin_core, eval_fromBase64,
      fromBase64_toBase64, value_to_py]
  · intro s e h
    simp only [evaluate_builtin, py_to_value, ok_bind] at h
    cases hfb : fromBase64 s with
    | some t => simp [eval_builtin_core, eval_fromBase64, hfb] at h
    | none =>
      simp [eval_builtin_core, eval_fromBase64, hfb] at h
      exact h.symm

theorem c5_base64_builtins_witness :
    evaluate_builtin "fromBase64" (.str "aGVsbG8=") = .ok (.str "hello") :=
  c5_base64_builtins.1 "hello" (.str "aGVsbG8=") (by decide)

/-! ## Lemmas: block-tag scanning -/

theorem hasClose_iff (t : Char) :
    ∀ l : List Char, hasClose t l = true ↔ ∃ u v, l = u ++ t :: '\x7d' :: v
  | [] => by
    constructor
    · intro h
      simp [hasClose] at h
    · rintro ⟨u, v, h⟩
      cases u <;> simp at h
  | [c] => by
    constructor
    · intro h
      simp [hasClose] at h
    · rintro ⟨u, v, h⟩
      rcases u with _ | ⟨x, u⟩
      · simp at h
      · rcases u with _ | ⟨y, u⟩ <;> simp at h
  | c :: d :: rest => by
    constructor
    · intro h
      simp only [hasClose, Bool.or_eq_true, decide_eq_true_eq] at h
      rcases h with ⟨rfl, rfl⟩ | h
      · exact ⟨[], rest, rfl⟩
      · obtain ⟨u, v, huv⟩ := (hasClose_iff t (d :: rest)).mp h
        exact ⟨c :: u, v, by simp [huv]⟩
    · rintro ⟨u, v, huv⟩
      rcases u with _ | ⟨x, u⟩
      · simp at huv
        simp only [hasClose, Bool.or_eq_true, decide_eq_true_eq]
        exact Or.inl ⟨huv.1, huv.2.1⟩
      · simp at huv
        have := (hasClose_iff t (d :: rest)).mpr ⟨u, v, huv.2⟩
        simp only [hasClose, Bool.or_eq_true]
        exact Or.inr this

theorem findOpen_of_decomp (t : Char) :
    ∀ (a b : List Char), ∃ r w,
      findOpen t (a ++ '\x7b' :: t :: b) = some r ∧ r = w ++ b
  | [], b => ⟨b, [], by simp [findOpen], by simp⟩
  | [x], b => by
    by_cases hx : x = '\x7b' ∧ '\x7b' = t
    · obtain ⟨hx1, hx2⟩ := hx
      subst hx1
      subst hx2
      exact ⟨'\x7b' :: b, ['\x7b'], by simp [findOpen], by simp⟩
    · exact ⟨b, [], by simp [findOpen, hx], by simp⟩
  | x :: y :: a, b => by
    by_cases hx : x = '\x7b' ∧ y = t
    · exact ⟨a ++ '\x7b' :: t :: b, a ++ ['\x7b', t], by simp [findOpen, hx],
        by simp⟩
    · obtain ⟨r, w, h1, h2⟩ := findOpen_of_decomp t (y :: a) b
      refine ⟨r, w, ?_, h2⟩
      simpa [findOpen, hx] using h1

theorem findOpen_sound (t : Char) :
    ∀ (l r : List Char), findOpen t l = some r →
      ∃ u, l = u ++ '\x7b' :: t :: r
  | [], r, h => by simp [findOpen] at h
  | [c], r, h => by simp [findOpen] at h
  | c :: d :: rest, r, h => by
    by_cases hcd : c = '\x7b' ∧ d = t
    · simp [findOpen, hcd] at h
      exact ⟨[], by simp [hcd.1, hcd.2, h]⟩
    · simp only [findOpen, hcd, if_false, ite_false] at h
      obtain ⟨u, hu⟩ := findOpen_sound t (d :: rest) r h
      exact ⟨c :: u, by simp [hu]⟩

/-- Claim C8: `has_jinja_blocks(text)` returns true if and only if the
text contains some complete `\x7b% … %\x7d` block tag; in particular a
text containing only `\x7b\x7b … \x7d\x7d` expression segments (and no
block tags) returns false, as does plain YAML. -/
theorem c8_has_jinja_blocks_iff :
    (∀ s : String, has_jinja_blocks s = true ↔
       ∃ a b c, s.data = a ++ '\x7b' :: '%' :: (b ++ '%' :: '\x7d' :: c)) ∧
    has_jinja_blocks "resources:\n\x7b% for i in range(3) %\x7d\n" = true ∧
    has_jinja_blocks
      "name: \"\x7b\x7b pulumi_project \x7d\x7d\"\nruntime: yaml\n" = false ∧
    has_jinja_blocks "name: test\nruntime: yaml\n" = false := by
  refine ⟨?_, by decide, by decide, by decide⟩
  intro s
  unfold has_jinja_blocks hasTag
  constructor
  · intro h
    cases hfo : findOpen '%' s.data with
    | none => rw [hfo] at h; simp at h
    | some r =>
      rw [hfo] at h
      obtain ⟨u, hu⟩ := findOpen_sound '%' s.data r hfo
      obtain ⟨u2, v2, huv⟩ := (hasClose_iff '%' r).mp h
      exact ⟨u, u2, v2, by simp [hu, huv]⟩
  · rintro ⟨a, b, c, habc⟩
    obtain ⟨r, w, h1, h2⟩ := findOpen_of_decomp '%' a (b ++ '%' :: '\x7d' :: c)
    rw [habc, h1]
    exact (hasClose_iff '%' r).mpr ⟨w ++ b, c, by simp [h2]⟩

theorem c8_has_jinja_blocks_iff_witness :
    ∃ a b c, ("x\x7b% endfor %\x7dy" : String).data =
      a ++ '\x7b' :: '%' :: (b ++ '%' :: '\x7d' :: c) :=
  (c8_has_jinja_blocks_iff.1 "x\x7b% endfor %\x7dy").mp (by decide)

/-! ## Lemmas: line structure and the preprocessor -/

theorem splitLinesL_ne_nil : ∀ d : List Char, splitLinesL d ≠ []
  | [] => by simp [splitLinesL]
  | c :: rest => by
    by_cases hc : c = '\n'
    · simp [splitLinesL, hc]
    · simp only [splitLinesL, hc, ite_false, if_false]
      cases h : splitLinesL rest <;> simp

theorem splitLinesL_cons_exists (d : List Char) :
    ∃ l ls, splitLinesL d = l :: ls := by
  cases h : splitLinesL d with
  | nil => exact absurd h (splitLinesL_ne_nil d)
  | cons l ls => exact ⟨l, ls, rfl⟩

theorem unlines_splitLines : ∀ d : List Char, unlinesL (splitLinesL d) = d
  | [] => rfl
  | c :: rest => by
    have ih := unlines_splitLines rest
    obtain ⟨l, ls, hls⟩ := splitLinesL_cons_exists rest
    rw [hls] at ih
    by_cases hc : c = '\n'
    · subst hc
      simp only [splitLinesL, ite_true, if_true]
      rw [hls, unlinesL]
      · simpa using ih
      · simp
    · simp only [splitLinesL, hc, ite_false, if_false]
      rw [hls]
      cases ls with
      | nil =>
        simp only [unlinesL] at ih ⊢
        simp [ih]
      | cons l2 ls2 =>
        simp only [unlinesL] at ih ⊢
        rw [← ih]
        simp

theorem splitLines_no_newline :
    ∀ (d l : List Char), l ∈ splitLinesL d → ¬('\n' ∈ l)
  | [], l, hl => by
    simp [splitLinesL] at hl
    simp [hl]
  | c :: rest, l, hl => by
    by_cases hc : c = '\n'
    · simp [splitLinesL, hc] at hl
      rcases hl with rfl | hl
      · simp
      · exact splitLines_no_newline rest l hl
    · obtain ⟨l1, ls, hls⟩ := splitLinesL_cons_exists rest
      simp only [splitLinesL, hc, ite_false, if_false] at hl
      rw [hls] at hl
      have hrest : ∀ x ∈ l1 :: ls, ¬('\n' ∈ x) := by
        intro x hx
        exact splitLines_no_newline rest x (hls ▸ hx)
      rcases List.mem_cons.mp hl with rfl | hl2
      · intro hmem
        rcases List.mem_cons.mp hmem with heq | hmem2
        · exact hc heq.symm
        · exact hrest l1 (List.mem_cons_self l1 ls) hmem2
      · exact hrest l (List.mem_cons_of_mem _ hl2)

theorem splitLines_of_no_newline : ∀ l : List Char, ¬('\n' ∈ l) → splitLinesL l = [l]
  | [], _ => rfl
  | c :: rest, h => by
    have hc : ¬(c = '\n') := by
      intro hh
      exact h (by simp [hh])
    have ih := splitLines_of_no_newline rest (fun hm => h (List.mem_cons_of_mem _ hm))
    simp [splitLinesL, hc, ih]

theorem splitLines_append_newline :
    ∀ (l d : List Char), ¬('\n' ∈ l) →
      splitLinesL (l ++ '\n' :: d) = l :: splitLinesL d
  | [], d, _ => by simp [splitLinesL]
  | c :: l, d, h => by
    have hc : ¬(c = '\n') := by
      intro hh
      exact h (by simp [hh])
    have ih := splitLines_append_newline l d
      (fun hm => h (List.mem_cons_of_mem _ hm))
    simp [splitLinesL, hc, ih]

theorem splitLines_unlines :
    ∀ ls : List (List Char), ls ≠ [] → (∀ l ∈ ls, ¬('\n' ∈ l)) →
      splitLinesL (unlinesL ls) = ls
  | [], h, _ => absurd rfl h
  | [l], _, hn => by
    simp only [unlinesL]
    exact splitLines_of_no_newline l (hn l (by simp))
  | l :: l2 :: ls, _, hn => by
    simp only [unlinesL]
    rw [splitLines_append_newline l (unlinesL (l2 :: ls)) (hn l (by simp)),
      splitLines_unlines (l2 :: ls) (by simp)
        (fun x hx => hn x (List.mem_cons_of_mem _ hx))]

theorem filter_idem {α : Type} (p : α → Bool) :
    ∀ l : List α, (l.filter p).filter p = l.filter p
  | [] => rfl
  | x :: l => by
    by_cases h : p x <;> simp [List.filter_cons, h, filter_idem p l]

theorem filter_of_all {α : Type} (p : α → Bool) :
    ∀ l : List α, (∀ x ∈ l, p x = true) → l.filter p = l
  | [], _ => rfl
  | x :: l, h => by
    simp [List.filter_cons, h x (by simp),
      filter_of_all p l (fun y hy => h y (List.mem_cons_of_mem _ hy))]

theorem mem_unlines_decomp :
    ∀ (ls : List (List Char)) (l : List Char), l ∈ ls →
      ∃ x y, unlinesL ls = x ++ (l ++ y)
  | [], l, h => by simp at h
  | [l0], l, h => by
    simp at h
    exact ⟨[], [], by simp [unlinesL, h]⟩
  | l0 :: l1 :: ls, l, h => by
    rcases List.mem_cons.mp h with rfl | h2
    · exact ⟨[], '\n' :: unlinesL (l1 :: ls), by simp [unlinesL]⟩
    · obtain ⟨x, y, hxy⟩ := mem_unlines_decomp (l1 :: ls) l h2
      exact ⟨l0 ++ '\n' :: x, y, by simp [unlinesL, hxy]⟩

/-- A complete block tag inside an infix of `d` is a block tag of `d`. -/
theorem hasTag_of_infix (d x y l : List Char) (hd : d = x ++ (l ++ y))
    (hl : hasTag '%' l = true) : hasTag '%' d = true := by
  cases hfo : findOpen '%' l with
  | none => rw [hasTag, hfo] at hl; simp at hl
  | some r =>
    rw [hasTag, hfo] at hl
    obtain ⟨u, hu⟩ := findOpen_sound '%' l r hfo
    obtain ⟨u2, v2, huv⟩ := (hasClose_iff '%' r).mp hl
    have hd2 : d = (x ++ u) ++ '\x7b' :: '%' ::
        ((u2 ++ ['%', '\x7d']) ++ (v2 ++ y)) := by
      simp [hd, hu, huv]
    obtain ⟨r2, w2, h1, h2⟩ :=
      findOpen_of_decomp '%' (x ++ u) ((u2 ++ ['%', '\x7d']) ++ (v2 ++ y))
    rw [hasTag, hd2, h1]
    refine (hasClose_iff '%' r2).mpr ⟨w2 ++ u2, v2 ++ y, ?_⟩
    simp [h2]

/-- Tokenizing templating-free text yields a single text token. -/
theorem tokenize_plain :
    ∀ (fuel : Nat) (l : List Char), l.length ≤ fuel →
      containsSeq2 '\x7b' '%' l = false →
      containsSeq2 '\x7b' '\x7b' l = false →
      tokenizeGo fuel l = .ok (if l = [] then [] else [.text l])
  | _, [], _, _, _ => by simp [tokenizeGo]
  | fuel, c :: rest, hf, hpct, hbrc => by
    obtain ⟨f, rfl⟩ : ∃ f, fuel = f + 1 := by
      cases fuel
      · simp at hf
      · exact ⟨_, rfl⟩
    have hfr : rest.length ≤ f := by
      simp at hf
      omega
    cases rest with
    | nil =>
      by_cases hc : c = '\x7b' <;>
        simp [tokenizeGo, hc, pushTextChar]
    | cons d rest2 =>
      have hpct2 : containsSeq2 '\x7b' '%' (d :: rest2) = false := by
        simp only [containsSeq2, Bool.or_eq_false_iff] at hpct
        exact hpct.2
      have hbrc2 : containsSeq2 '\x7b' '\x7b' (d :: rest2) = false := by
        simp only [containsSeq2, Bool.or_eq_false_iff] at hbrc
        exact hbrc.2
      have ih := tokenize_plain f (d :: rest2) hfr hpct2 hbrc2
      by_cases hc : c = '\x7b'
      · have hd1 : ¬(d = '%') := by
          intro hd
          simp [containsSeq2, hc, hd] at hpct
        have hd2 : ¬(d = '\x7b') := by
          intro hd
          simp [containsSeq2, hc, hd] at hbrc
        subst hc
        simp only [tokenizeGo, ite_true, if_true]
        rw [show (match d :: rest2 with
          | '\x7b' :: rest1 =>
            match readUntilClose '\x7d' rest1 with
            | some (content, rest2) => do
              let ts ← tokenizeGo f rest2
              Except.ok (JTok.exprT (trimSpaces content) :: ts)
            | none => Except.error Err.unbalancedBlocks
          | '%' :: rest1 =>
            match readUntilClose '%' rest1 with
            | some (content, rest2) => do
              let tg ← parseTag content
              let ts ← tokenizeGo f rest2
              Except.ok (tg :: ts)
            | none => Except.error Err.unbalancedBlocks
          | _ => do
            let ts ← tokenizeGo f (d :: rest2)
            Except.ok (pushTextChar '\x7b' ts) : Except Err (List JTok)) = do
            let ts ← tokenizeGo f (d :: rest2)
            Except.ok (pushTextChar '\x7b' ts) from by
          cases d
          all_goals simp_all]
        rw [ih]
        simp [pushTextChar]
      · simp only [tokenizeGo, hc, ite_false, if_false]
        rw [ih]
        simp [pushTextChar]

/-- Evaluating a single text node returns the text. -/
theorem eval_single_text (f : Nat) (l : List Char) (ctx : JinjaCtx) :
    evalNodesGo (f + 1) (.cons (.text l) .nil) ctx = .ok l := by
  simp [evalNodesGo, evalNodeGo]

/-- Claim C7: `strip_jinja_blocks` is idempotent on its own output, it
leaves text without block tags unchanged, and `preprocess_jinja` returns
any templating-free text unchanged for every context map. -/
theorem c7_preprocessor_identities :
    (∀ s : String, strip_jinja_blocks (strip_jinja_blocks s) =
       strip_jinja_blocks s) ∧
    (∀ s : String, has_jinja_blocks s = false → strip_jinja_blocks s = s) ∧
    (∀ (s : String) (ctx : JinjaCtx), has_templating s = false →
       preprocess_jinja s ctx = .ok s) := by
  refine ⟨?_, ?_, ?_⟩
  · intro s
    unfold strip_jinja_blocks
    rw [string_mk_data]
    cases hls : (splitLinesL s.data).filter (fun l => !lineHasBlockTag l) with
    | nil => simp [unlinesL, splitLinesL, lineHasBlockTag, hasTag, findOpen]
    | cons l0 ls0 =>
      rw [← hls]
      have hnn : ∀ x ∈ (splitLinesL s.data).filter
          (fun l => !lineHasBlockTag l), ¬('\n' ∈ x) := by
        intro x hx
        exact splitLines_no_newline s.data x (List.mem_of_mem_filter hx)
      rw [splitLines_unlines _ (by rw [hls]; simp) hnn, filter_idem]
  · intro s h
    unfold strip_jinja_blocks
    have hall : ∀ l ∈ splitLinesL s.data, (fun l => !lineHasBlockTag l) l = true := by
      intro l hl
      suffices hsf : lineHasBlockTag l = false by simp [hsf]
      by_contra htag
      rw [Bool.not_eq_false] at htag
      rw [lineHasBlockTag] at htag
      obtain ⟨x, y, hxy⟩ := mem_unlines_decomp (splitLinesL s.data) l hl
      rw [unlines_splitLines] at hxy
      have h2 := hasTag_of_infix s.data x y l hxy htag
      rw [has_jinja_blocks, h2] at h
      simp at h
    rw [filter_of_all _ _ hall, unlines_splitLines, string_data_mk]
  · intro s ctx h
    simp only [has_templating, Bool.or_eq_false_iff] at h
    unfold preprocess_jinja tokenizeTop
    rw [tokenize_plain s.data.length s.data (Nat.le_refl _) h.1 h.2]
    by_cases hnil : s.data = []
    · simp only [hnil, ite_true, if_true]
      simp [parseTop, parseNodesGo, evalNodesGo]
      rw [show s = String.mk [] from by rw [← hnil, string_data_mk]]
    · simp only [hnil, ite_false, if_false]
      rw [ok_bind]
      have hp : parseTop [JTok.text s.data] = .ok (.cons (.text s.data) .nil) := by
        simp [parseTop, parseNodesGo]
      rw [hp, ok_bind]
      obtain ⟨g, hg⟩ : ∃ g, 4096 + 64 * s.data.length = g + 1 :=
        ⟨4095 + 64 * s.data.length, by omega⟩
      rw [hg, eval_single_text, ok_bind, string_data_mk]

theorem c7_preprocessor_identities_witness :
    strip_jinja_blocks "name: test\nruntime: yaml\n" =
      "name: test\nruntime: yaml\n" ∧
    preprocess_jinja "name: test\nruntime: yaml\n"
      [("project_name", "t")] = .ok "name: test\nruntime: yaml\n" :=
  ⟨c7_preprocessor_identities.2.1 "name: test\nruntime: yaml\n" (by decide),
   c7_preprocessor_identities.2.2 "name: test\nruntime: yaml\n"
     [("project_name", "t")] (by decide)⟩

/-! ## Lemmas: binary discovery -/

theorem string_data_append (a b : String) : (a ++ b).data = a.data ++ b.data := by
  cases a
  cases b
  rfl

/-- Claim C10: `find_language_binary` and `find_converter_binary` return
the path of the file named `pulumi-language-yaml` (respectively
`pulumi-converter-yaml`, plus the platform executable suffix) inside the
package's `bin` directory when that file exists, raise
`FileNotFoundError` exactly when it does not, and never return a path
outside that `bin` directory. -/
theorem c10_find_binary (binDir : String) (files : List String)
    (suffix : String) :
    (∀ p, find_language_binary binDir files suffix = .ok p ↔
       (p = binDir ++ "/" ++ "pulumi-language-yaml" ++ suffix ∧
        strMem p files = true)) ∧
    (find_language_binary binDir files suffix = .error .fileNotFoundError ↔
       strMem (binDir ++ "/" ++ "pulumi-language-yaml" ++ suffix) files =
         false) ∧
    (∀ p, find_language_binary binDir files suffix = .ok p →
       (binDir ++ "/").data <+: p.data) ∧
    (∀ p, find_converter_binary binDir files suffix = .ok p ↔
       (p = binDir ++ "/" ++ "pulumi-converter-yaml" ++ suffix ∧
        strMem p files = true)) ∧
    (find_converter_binary binDir files suffix = .error .fileNotFoundError ↔
       strMem (binDir ++ "/" ++ "pulumi-converter-yaml" ++ suffix) files =
         false) ∧
    (∀ p, find_converter_binary binDir files suffix = .ok p →
       (binDir ++ "/").data <+: p.data) := by
  refine ⟨?_, ?_, ?_, ?_, ?_, ?_⟩
  · intro p
    unfold find_language_binary
    by_cases hm : strMem (binDir ++ "/" ++ "pulumi-language-yaml" ++ suffix)
        files = true
    · simp [hm]
      constructor
      · intro hp
        exact ⟨hp.symm, hp ▸ hm⟩
      · intro hp
        exact hp.1.symm
    · simp [Bool.not_eq_true] at hm
      simp [hm]
      intro hp
      rw [hp]
      simp [hm]
  · unfold find_language_binary
    by_cases hm : strMem (binDir ++ "/" ++ "pulumi-language-yaml" ++ suffix)
        files = true <;> simp_all
  · intro p h
    unfold find_language_binary at h
    by_cases hm : strMem (binDir ++ "/" ++ "pulumi-language-yaml" ++ suffix)
        files = true
    · simp [hm] at h
      rw [← h, show binDir ++ "/" ++ "pulumi-language-yaml" ++ suffix =
        (binDir ++ "/") ++ ("pulumi-language-yaml" ++ suffix) from
        String.append_assoc _ _ _]
      rw [string_data_append]
      exact List.prefix_append _ _
    · simp [Bool.not_eq_true] at hm
      simp [hm] at h
  · intro p
    unfold find_converter_binary
    by_cases hm : strMem (binDir ++ "/" ++ "pulumi-converter-yaml" ++ suffix)
        files = true
    · simp [hm]
      constructor
      · intro hp
        exact ⟨hp.symm, hp ▸ hm⟩
      · intro hp
        exact hp.1.symm
    · simp [Bool.not_eq_true] at hm
      simp [hm]
      intro hp
      rw [hp]
      simp [hm]
  · unfold find_converter_binary
    by_cases hm : strMem (binDir ++ "/" ++ "pulumi-converter-yaml" ++ suffix)
        files = true <;> simp_all
  · intro p h
    unfold find_converter_binary at h
    by_cases hm : strMem (binDir ++ "/" ++ "pulumi-converter-yaml" ++ suffix)
        files = true
    · simp [hm] at h
      rw [← h, show binDir ++ "/" ++ "pulumi-converter-yaml" ++ suffix =
        (binDir ++ "/") ++ ("pulumi-converter-yaml" ++ suffix) from
        String.append_assoc _ _ _]
      rw [string_data_append]
      exact List.prefix_append _ _
    · simp [Bool.not_eq_true] at hm
      simp [hm] at h

theorem c10_find_binary_witness :
    find_language_binary "/site-packages/pulumi_yaml_rs/bin"
        ["/site-packages/pulumi_yaml_rs/bin/pulumi-language-yaml"] "" =
      .ok "/site-packages/pulumi_yaml_rs/bin/pulumi-language-yaml" :=
  ((c10_find_binary "/site-packages/pulumi_yaml_rs/bin"
      ["/site-packages/pulumi_yaml_rs/bin/pulumi-language-yaml"] "").1
    "/site-packages/pulumi_yaml_rs/bin/pulumi-language-yaml").mpr
    (by constructor <;> decide)

/-! ## Claim C1: type-token canonicalization -/

/-- Claim C1: for every resource whose type token has the three-segment
shape `ns:mod:Name` (containing no `/`), the plan produced by
`create_execution_plan` carries `type_token` equal to
`ns:mod/lower(Name):Name` where `lower` ASCII-lowercases only the first
character; `gcp:storage:Bucket` yields `"gcp:storage/bucket:Bucket"`; a
token already containing `/` is left unchanged; and every resource node
of any returned plan carries the canonicalization of some declared
token. -/
theorem c1_type_token_canonicalization :
    (∀ tok ns md nm : String, splitOnChar ':' tok = [ns, md, nm] →
       tok.data.any (fun c => c = '/') = false →
       canonicalize_type_token tok =
         ns ++ ":" ++ md ++ "/" ++ lowerFirstAscii nm ++ ":" ++ nm) ∧
    (∀ tok : String, tok.data.any (fun c => c = '/') = true →
       canonicalize_type_token tok = tok) ∧
    canonicalize_type_token "gcp:storage:Bucket" =
      "gcp:storage/bucket:Bucket" ∧
    (∀ fs p, create_execution_plan fs = .ok p →
       ∀ nm tt props opts g, PlanNode.resource nm tt props opts g ∈ p.nodes →
         ∃ r : ResourceDecl, tt = canonicalize_type_token r.typeTok) ∧
    (create_execution_plan (some [("Pulumi.yaml", gcpTokenDoc)])).map
        (fun p => p.nodes) =
      .ok [PlanNode.resource "bucket" "gcp:storage/bucket:Bucket"
        [("name", Expr.strE "my-bucket")] none none] := by
  refine ⟨?_, ?_, by decide, ?_, by decide⟩
  · intro tok ns md nm hsplit hslash
    simp [canonicalize_type_token, hslash, hsplit]
  · intro tok hslash
    simp [canonicalize_type_token, hslash]
  · intro fs p hp nm tt props opts g hmem
    cases hl : load_project fs with
    | error e => simp [create_execution_plan, hl, Except.map] at hp
    | ok proj =>
      simp only [create_execution_plan, hl, Except.map] at hp
      rcases hp with rfl | hp
      case _ =>
        simp only [mkPlan, List.mem_append] at hmem
        rcases hmem with (h | h) | h
        · obtain ⟨x, _, heq⟩ := List.mem_map.mp h
          simp at heq
        · obtain ⟨x, _, heq⟩ := List.mem_map.mp h
          simp at heq
        · obtain ⟨x, _, heq⟩ := List.mem_map.mp h
          simp only [PlanNode.resource.injEq] at heq
          exact ⟨x.2, heq.2.1.symm⟩

theorem c1_type_token_canonicalization_witness :
    canonicalize_type_token "gcp:storage:Bucket" =
      "gcp" ++ ":" ++ "storage" ++ "/" ++ lowerFirstAscii "Bucket" ++ ":" ++
        "Bucket" :=
  c1_type_token_canonicalization.1 "gcp:storage:Bucket" "gcp" "storage"
    "Bucket" (by decide) (by decide)

/-! ## Lemmas: membership utilities and discovery -/

theorem strMem_iff (s : String) : ∀ l : List String, strMem s l = true ↔ s ∈ l
  | [] => by simp [strMem]
  | x :: l => by
    simp [strMem, Bool.or_eq_true, decide_eq_true_eq, strMem_iff s l,
      List.mem_cons]

theorem mem_insertLe {α : Type} (le : α → α → Bool) (x y : α) :
    ∀ l : List α, y ∈ insertLe le x l ↔ y ∈ x :: l
  | [] => Iff.rfl
  | z :: l => by
    by_cases h : le x z
    · simp [insertLe, h]
    · have hb : le x z = false := by simpa using h
      simp only [insertLe, hb, Bool.false_eq_true, if_false, ite_false,
        List.mem_cons, mem_insertLe le x y l]
      tauto

theorem mem_sortLe {α : Type} (le : α → α → Bool) (y : α) :
    ∀ l : List α, y ∈ sortLe le l ↔ y ∈ l
  | [] => Iff.rfl
  | x :: l => by
    rw [show sortLe le (x :: l) = insertLe le x (sortLe le l) from rfl,
      mem_insertLe]
    simp [mem_sortLe le y l]

/-- Claim C9: `discover_project_files`, `load_project`, and
`create_execution_plan` fail with a single fatal error for every missing
directory and for every directory lacking a primary manifest named
`Pulumi.yaml`; when `Pulumi.yaml` exists, discovery succeeds with it as
`main_file`, with exactly the sibling `Pulumi.*.yaml` files as additional
files, counted in `file_count`. -/
theorem c9_discovery_fatal_errors :
    (discover_project_files none = .error .missingDirectory ∧
     load_project none = .error .missingDirectory ∧
     create_execution_plan none = .error .missingDirectory) ∧
    (∀ files : List (String × ParsedDoc),
       strMem "Pulumi.yaml" (files.map (fun p => p.1)) = false →
       discover_project_files (some files) = .error .missingManifest ∧
       load_project (some files) = .error .missingManifest ∧
       create_execution_plan (some files) = .error .missingManifest) ∧
    (∀ files : List (String × ParsedDoc),
       strMem "Pulumi.yaml" (files.map (fun p => p.1)) = true →
       ∃ d, discover_project_files (some files) = .ok d ∧
         d.main_file = "Pulumi.yaml" ∧
         (∀ n, strMem n d.additional_files = true ↔
            (strMem n (files.map (fun p => p.1)) = true ∧
             isOverlayName n = true)) ∧
         d.file_count = 1 + d.additional_files.length) := by
  refine ⟨⟨rfl, rfl, rfl⟩, ?_, ?_⟩
  · intro files h
    refine ⟨?_, ?_, ?_⟩
    · simp [discover_project_files, h]
    · simp [load_project, project_files, discover_project_files, h]
    · simp [create_execution_plan, load_project, project_files,
        discover_project_files, h, Except.map]
  · intro files h
    refine ⟨⟨"Pulumi.yaml",
      sortStrings ((files.map (fun p => p.1)).filter isOverlayName),
      1 + (sortStrings
        ((files.map (fun p => p.1)).filter isOverlayName)).length⟩,
      ?_, rfl, ?_, rfl⟩
    · simp [discover_project_files, h]
    · intro n
      rw [strMem_iff, strMem_iff]
      simp [sortStrings, mem_sortLe, List.mem_filter]

theorem c9_discovery_fatal_errors_witness :
    ∃ d, discover_project_files
        (some [("Pulumi.yaml", multiMainDoc),
          ("Pulumi.storage.yaml", storageOverlayDoc)]) = .ok d ∧
      d.main_file = "Pulumi.yaml" ∧
      (∀ n, strMem n d.additional_files = true ↔
         (strMem n ([("Pulumi.yaml", multiMainDoc),
           ("Pulumi.storage.yaml", storageOverlayDoc)].map
             (fun p => p.1)) = true ∧
          isOverlayName n = true)) ∧
      d.file_count = 1 + d.additional_files.length :=
  c9_discovery_fatal_errors.2.2
    [("Pulumi.yaml", multiMainDoc), ("Pulumi.storage.yaml", storageOverlayDoc)]
    (by decide)

/-! ## Lemmas: merger and source map -/

theorem addDecl_source_map (path : String) (proj : Project) (s : String)
    (p : DeclPayload) :
    (addDecl path proj s p).source_map =
      if (alookup s proj.source_map).isSome then proj.source_map
      else (s, path) :: proj.source_map := by
  unfold addDecl
  by_cases h : (alookup s proj.source_map).isSome
  · simp [h]
  · simp only [h, if_false, ite_false, Bool.false_eq_true]
    cases p <;> rfl

theorem addDecls_source_map_lookup (path : String) :
    ∀ (ds : List (String × DeclPayload)) (proj : Project) (q : String),
      alookup q (addDecls path proj ds).source_map =
        match alookup q proj.source_map with
        | some v => some v
        | none =>
          if strMem q (ds.map (fun d => d.1)) then some path else none
  | [], proj, q => by
    cases h : alookup q proj.source_map <;> simp [addDecls, h, strMem]
  | (s, p) :: ds, proj, q => by
    rw [show addDecls path proj ((s, p) :: ds) =
      addDecls path (addDecl path proj s p) ds from rfl]
    rw [addDecls_source_map_lookup path ds (addDecl path proj s p) q,
      addDecl_source_map]
    by_cases hs : (alookup s proj.source_map).isSome
    · simp only [hs, if_true, ite_true]
      cases hq : alookup q proj.source_map with
      | some v => simp
      | none =>
        by_cases hqs : q = s
        · subst hqs
          rw [hq] at hs
          simp at hs
        · simp [strMem, hqs]
    · simp only [hs, if_false, ite_false, Bool.false_eq_true]
      by_cases hqs : q = s
      · subst hqs
        have hq : alookup q proj.source_map = none := by
          cases hqq : alookup q proj.source_map
          · rfl
          · rw [hqq] at hs
            simp at hs
        simp [alookup, hq, strMem]
      · simp only [alookup, hqs, if_false, ite_false]
        cases hq : alookup q proj.source_map <;> simp [strMem, hqs]

theorem mergeDocs_source_map_lookup :
    ∀ (files : List (String × ParsedDoc)) (proj : Project) (q : String),
      alookup q (mergeDocs proj files).source_map =
        match alookup q proj.source_map with
        | some v => some v
        | none => firstDeclaringFile files q
  | [], proj, q => by
    cases h : alookup q proj.source_map <;>
      simp [mergeDocs, h, firstDeclaringFile]
  | (path, d) :: files, proj, q => by
    rw [show mergeDocs proj ((path, d) :: files) =
      mergeDocs (addDecls path proj (declsOfDoc d)) files from rfl]
    rw [mergeDocs_source_map_lookup files _ q,
      addDecls_source_map_lookup path (declsOfDoc d) proj q]
    have hsyms : (declsOfDoc d).map (fun x => x.1) = declaredSymsOfDoc d := rfl
    rw [hsyms]
    cases hq : alookup q proj.source_map with
    | some v => simp
    | none =>
      by_cases hm : strMem q (declaredSymsOfDoc d) = true
      · simp [hm, firstDeclaringFile]
      · have hm2 : strMem q (declaredSymsOfDoc d) = false := by simpa using hm
        simp [hm2, firstDeclaringFile]

theorem firstDeclaringFile_isSome :
    ∀ (files : List (String × ParsedDoc)) (s : String),
      (firstDeclaringFile files s).isSome = true ↔ s ∈ declaredSyms files
  | [], s => by simp [firstDeclaringFile, declaredSyms]
  | (p, d) :: files, s => by
    by_cases hm : strMem s (declaredSymsOfDoc d) = true
    · simp only [firstDeclaringFile, hm, ite_true, if_true, declaredSyms,
        List.mem_append, Option.isSome_some]
      constructor
      · intro _
        exact Or.inl ((strMem_iff s _).mp hm)
      · intro _
        trivial
    · have hm2 : strMem s (declaredSymsOfDoc d) = false := by simpa using hm
      have hnot : ¬(s ∈ declaredSymsOfDoc d) := by
        intro hmem
        rw [(strMem_iff s _).mpr hmem] at hm2
        simp at hm2
      simp only [firstDeclaringFile, hm2, Bool.false_eq_true, ite_false,
        if_false, declaredSyms, List.mem_append,
        firstDeclaringFile_isSome files s]
      tauto

/-- Claim C3: for every project accepted by `load_project` or
`create_execution_plan`, `source_map` is total over declared symbols (a
symbol has an entry exactly when some project file declares it) and each
symbol maps to the path of the file that first declared it; in
particular a symbol `storageBucket` declared only in overlay
`Pulumi.storage.yaml` maps to that overlay's path. -/
theorem c3_source_map_totality :
    (∀ (files : List (String × ParsedDoc)) (proj : Project),
       load_project (some files) = .ok proj →
       ∃ ordered, project_files files = .ok ordered ∧
         (∀ s, alookup s proj.source_map = firstDeclaringFile ordered s) ∧
         (∀ s, (alookup s proj.source_map).isSome = true ↔
            s ∈ declaredSyms ordered)) ∧
    (∀ fs p, create_execution_plan fs = .ok p →
       ∃ proj, load_project fs = .ok proj ∧
         p.source_map = proj.source_map) ∧
    (load_project (some [("Pulumi.yaml", multiMainDoc),
        ("Pulumi.storage.yaml", storageOverlayDoc)])).map
        (fun proj => alookup "storageBucket" proj.source_map) =
      .ok (some "Pulumi.storage.yaml") := by
  refine ⟨?_, ?_, by decide⟩
  · intro files proj hload
    rw [show load_project (some files) =
      (do
        let ordered ← project_files files
        match ordered with
        | [] => Except.error Err.missingManifest
        | (_, d0) :: _ => Except.ok (mergeDocs (initProject d0) ordered)) from
      rfl] at hload
    cases hpf : project_files files with
    | error e =>
      rw [hpf] at hload
      simp at hload
    | ok ordered =>
      rw [hpf] at hload
      simp only [ok_bind] at hload
      cases ordered with
      | nil => simp at hload
      | cons hd tl =>
        obtain ⟨p0, d0⟩ := hd
        have hproj : mergeDocs (initProject d0) ((p0, d0) :: tl) = proj := by
          exact Except.ok.inj hload
        subst hproj
        refine ⟨(p0, d0) :: tl, rfl, ?_, ?_⟩
        · intro s
          rw [mergeDocs_source_map_lookup]
          simp [initProject, alookup]
        · intro s
          rw [mergeDocs_source_map_lookup]
          simp only [initProject, alookup]
          exact firstDeclaringFile_isSome ((p0, d0) :: tl) s
  · intro fs p hp
    cases hl : load_project fs with
    | error e => simp [create_execution_plan, hl, Except.map] at hp
    | ok proj =>
      simp only [create_execution_plan, hl, Except.map] at hp
      have hp2 := Except.ok.inj hp
      exact ⟨proj, rfl, by rw [← hp2]; simp [mkPlan]⟩

theorem c3_source_map_totality_witness :
    ∃ ordered, project_files [("Pulumi.yaml", multiMainDoc),
        ("Pulumi.storage.yaml", storageOverlayDoc)] = .ok ordered ∧
      (∀ s, alookup s (mergeDocs (initProject multiMainDoc)
          [("Pulumi.yaml", multiMainDoc),
           ("Pulumi.storage.yaml", storageOverlayDoc)]).source_map =
        firstDeclaringFile ordered s) ∧
      (∀ s, (alookup s (mergeDocs (initProject multiMainDoc)
          [("Pulumi.yaml", multiMainDoc),
           ("Pulumi.storage.yaml", storageOverlayDoc)]).source_map).isSome =
            true ↔ s ∈ declaredSyms ordered) :=
  c3_source_map_totality.1
    [("Pulumi.yaml", multiMainDoc), ("Pulumi.storage.yaml", storageOverlayDoc)]
    (mergeDocs (initProject multiMainDoc)
      [("Pulumi.yaml", multiMainDoc),
       ("Pulumi.storage.yaml", storageOverlayDoc)])
    (by decide)

/-! ## Lemmas: topological layering -/

/-- Soundness of the Kahn layering: a placed symbol's dependencies that
are still part of the working set are placed at strictly earlier
levels. -/
theorem kahn_sound (deps : String → List String) :
    ∀ (fuel : Nat) (rem : List String) (u : String) (i : Nat),
      findLevel (kahnLevels deps fuel rem) u = some i →
      ∀ v, v ∈ deps u → v ∈ rem →
        ∃ j, findLevel (kahnLevels deps fuel rem) v = some j ∧ j < i
  | 0, rem, u, i, hu, v, hvd, hvr => by
    simp [kahnLevels, findLevel] at hu
  | fuel + 1, rem, u, i, hu, v, hvd, hvr => by
    rw [kahnLevels] at hu ⊢
    cases hre : (kahnReady deps rem).isEmpty with
    | true =>
      have hnil := List.isEmpty_iff.mp hre
      simp [hnil, findLevel] at hu
    | false =>
      rw [hre] at hu
      rw [if_neg (by simp)] at hu
      rw [if_neg (by simp)]
      by_cases hu0 : strMem u (kahnReady deps rem) = true
      · simp only [findLevel, hu0, if_true, ite_true] at hu
        have hpred := (List.mem_filter.mp
          ((strMem_iff u (kahnReady deps rem)).mp hu0)).2
        have hvmem : v ∈ (deps u).filter (fun d => strMem d rem) :=
          List.mem_filter.mpr ⟨hvd, (strMem_iff v rem).mpr hvr⟩
        rw [List.isEmpty_iff.mp hpred] at hvmem
        simp at hvmem
      · simp only [findLevel, hu0, Bool.false_eq_true, if_false,
          ite_false] at hu
        obtain ⟨i2, hu2, hi⟩ : ∃ i2,
            findLevel (kahnLevels deps fuel
              (rem.filter (fun s => !strMem s (kahnReady deps rem)))) u =
              some i2 ∧ i = i2 + 1 := by
          cases hul : findLevel (kahnLevels deps fuel
              (rem.filter (fun s => !strMem s (kahnReady deps rem)))) u with
          | none => rw [hul] at hu; simp at hu
          | some i2 =>
            rw [hul] at hu
            simp at hu
            exact ⟨i2, rfl, hu.symm⟩
        by_cases hv0 : strMem v (kahnReady deps rem) = true
        · refine ⟨0, ?_, by omega⟩
          simp [findLevel, hv0]
        · have hvr2 : v ∈ rem.filter (fun s => !strMem s (kahnReady deps rem)) :=
            List.mem_filter.mpr ⟨hvr, by simp [hv0]⟩
          obtain ⟨j2, hj2, hlt⟩ :=
            kahn_sound deps fuel
              (rem.filter (fun s => !strMem s (kahnReady deps rem)))
              u i2 hu2 v hvd hvr2
          refine ⟨j2 + 1, ?_, by omega⟩
          simp [findLevel, hv0, hj2]

/-- Claim C2: for every project accepted by `create_execution_plan`, the
returned `levels` list is a valid topological order of the inferred
dependency DAG: for every edge `u → v` (`u` depends on `v`, including
edges contributed by `sym` references and `dependsOn` entries in
resource options, which `project_deps` collects), whenever `u` is
placed, `v` is placed at a strictly smaller level index; in particular
with `bucketB.options.dependsOn: [${bucketA}]`, `bucketA` lands in
`levels[0]` and `bucketB` in `levels[1]`. -/
theorem c2_topological_levels :
    (∀ fs proj, load_project fs = .ok proj →
       create_execution_plan fs = .ok (mkPlan proj) ∧
       (∀ u v, v ∈ project_deps proj u →
          ∀ i, findLevel (mkPlan proj).levels u = some i →
            ∃ j, findLevel (mkPlan proj).levels v = some j ∧ j < i)) ∧
    (create_execution_plan (some [("Pulumi.yaml", dependsOnDoc)])).map
        Plan.levels = .ok [["bucketA"], ["bucketB"]] := by
  refine ⟨?_, by decide⟩
  intro fs proj hl
  refine ⟨by simp [create_execution_plan, hl, Except.map], ?_⟩
  intro u v hvdep i hui
  have hlev : (mkPlan proj).levels =
      kahnLevels (project_deps proj) (sortPlanSyms proj).length
        (sortPlanSyms proj) := by
    simp [mkPlan]
  rw [hlev] at hui ⊢
  have hv_rem : v ∈ sortPlanSyms proj := by
    have hv_plan : v ∈ planSyms proj := by
      have hm := (List.mem_filter.mp hvdep).2
      exact (strMem_iff v (planSyms proj)).mp hm
    exact (mem_sortLe _ v (planSyms proj)).mpr hv_plan
  exact kahn_sound (project_deps proj) _ _ u i hui v hvdep hv_rem

theorem c2_topological_levels_witness :
    create_execution_plan (some [("Pulumi.yaml", dependsOnDoc)]) =
      .ok (mkPlan (mergeDocs (initProject dependsOnDoc)
        [("Pulumi.yaml", dependsOnDoc)])) ∧
    (∃ j, findLevel (mkPlan (mergeDocs (initProject dependsOnDoc)
        [("Pulumi.yaml", dependsOnDoc)])).levels "bucketA" = some j ∧
      j < 1) :=
  ⟨(c2_topological_levels.1 (some [("Pulumi.yaml", dependsOnDoc)])
      (mergeDocs (initProject dependsOnDoc) [("Pulumi.yaml", dependsOnDoc)])
      (by decide)).1,
   (c2_topological_levels.1 (some [("Pulumi.yaml", dependsOnDoc)])
      (mergeDocs (initProject dependsOnDoc) [("Pulumi.yaml", dependsOnDoc)])
      (by decide)).2 "bucketB" "bucketA" (by decide) 1 (by decide)⟩

end PulumiYamlRs
